import Mathlib

/-!
Verification of the resilience-and-addressing core of a Google-Sheets MCP
server: the coordinate engine (`a1ToRowCol`, `rowColToA1`, `parseRange`,
`createSheetRange`, `extractSheetName`), the retry executor
(`executeWithRetry`, `isRetryableError`, `calculateDelay`), the sliding
window rate limiter (`checkRateLimit`), and the search/replace matching
engine (`search`, `smartReplace`).

The definitions below are shallow embeddings of the TypeScript source.
JavaScript machine numbers that are used as integers (timestamps, rows,
columns, HTTP statuses) are modelled as `Nat`/`Int`; millisecond delays in
the backoff computation are modelled as `Rat`.  ASCII strings are modelled
by Lean strings; `toLowerCase` is modelled on the ASCII fragment.
Recursions that the source expresses as loops or as non-structural
recursion carry an explicit fuel argument chosen large enough to be
unreachable (each lemma shows the fuel bound used is sufficient), so that
every definition is executable by kernel reduction.
-/

namespace GSMCP

/-- Error kinds raised by the coordinate engine, mirroring the two thrown
messages in the source: `Invalid range format: ...` and
`Invalid A1 notation: ...`. -/
inductive SheetsErr where
  | invalidRange (s : String)
  | invalidA1 (s : String)
  deriving DecidableEq, Repr

/-- Character class `[A-Z]` of the source regexes, by char code. -/
def isUpperCh (c : Char) : Bool :=
  decide (65 ≤ c.toNat) && decide (c.toNat ≤ 90)

/-- Character class `[0-9]` of the source regexes, by char code. -/
def isDigitCh (c : Char) : Bool :=
  decide (48 ≤ c.toNat) && decide (c.toNat ≤ 57)

/-- Value of a column-letter string, accumulated exactly like the source
loop `col = col * 26 + (colStr.charCodeAt(i) - 64)`. -/
def lettersVal (cs : List Char) : Nat :=
  cs.foldl (fun acc c => acc * 26 + (c.toNat - 64)) 0

/-- Value of a digit string, accumulated like `parseInt(rowStr, 10)` on an
all-digit string. -/
def digitsVal (cs : List Char) : Nat :=
  cs.foldl (fun acc c => acc * 10 + (c.toNat - 48)) 0

/-- `SheetsUtils.a1ToRowCol`: match `^([A-Z]+)([0-9]+)$` (equivalently:
a non-empty maximal uppercase prefix followed by a non-empty all-digit
suffix), decode the letters in bijective base 26 and the digits in base
10; otherwise fail with `Invalid A1 notation`. -/
def a1ToRowCol (s : String) : Except SheetsErr (Nat × Nat) :=
  let cs := s.toList
  let letters := cs.takeWhile isUpperCh
  let rest := cs.dropWhile isUpperCh
  if letters ≠ [] ∧ rest ≠ [] ∧ rest.all isDigitCh then
    Except.ok (digitsVal rest, lettersVal letters)
  else Except.error (SheetsErr.invalidA1 s)

/-- The column-letter loop of `SheetsUtils.rowColToA1`
(`while (col > 0) { col--; colStr = chr(65 + col % 26) + colStr; col = floor(col / 26) }`),
with fuel; `fuel = col` iterations always suffice. -/
def colLettersFuel : Nat → Nat → List Char
  | 0, _ => []
  | _, 0 => []
  | fuel + 1, col + 1 =>
    colLettersFuel fuel (col / 26) ++ [Char.ofNat (65 + col % 26)]

/-- Column number to bijective base-26 letters. -/
def colLetters (col : Nat) : List Char :=
  colLettersFuel col col

/-- Decimal digits of `n` (empty for `0`), with fuel; `fuel = n` suffices. -/
def natDigitsFuel : Nat → Nat → List Char
  | 0, _ => []
  | _, 0 => []
  | fuel + 1, n + 1 =>
    natDigitsFuel fuel ((n + 1) / 10) ++ [Char.ofNat (48 + (n + 1) % 10)]

/-- Decimal rendering of a natural number, as produced by the template
interpolation of the row number in the source. -/
def natToChars (n : Nat) : List Char :=
  if n = 0 then [Char.ofNat 48] else natDigitsFuel n n

/-- `SheetsUtils.rowColToA1`: bijective base-26 letters for the column
followed by the decimal row number. -/
def rowColToA1 (row col : Nat) : String :=
  ⟨colLetters col ++ natToChars row⟩

/-- JavaScript `split` with a single-character separator, at the level of
character lists: `"".split(c)` is `[""]`, adjacent separators produce empty
parts. -/
def splitOnCh (sep : Char) : List Char → List (List Char)
  | [] => [[]]
  | c :: rest =>
    let r := splitOnCh sep rest
    if c = sep then [] :: r
    else match r with
      | [] => [[c]]
      | p :: ps => (c :: p) :: ps

/-- `range.split(':')` of the source. -/
def jsSplitColon (s : String) : List String :=
  (splitOnCh ':' s.toList).map fun l => ⟨l⟩

/-- Result record of `SheetsUtils.parseRange`. -/
structure ParsedRange where
  startRow : Nat
  endRow : Nat
  startCol : Nat
  endCol : Nat
  deriving DecidableEq, Repr

/-- `SheetsUtils.parseRange`: split on the colon separator; fail with
`Invalid range format` unless there are exactly two non-empty parts
(`parts.length !== 2 || !parts[0] || !parts[1]`); then parse both sides
with `a1ToRowCol`, propagating its error. -/
def parseRange (range : String) : Except SheetsErr ParsedRange :=
  match jsSplitColon range with
  | [p0, p1] =>
    if p0 = "" ∨ p1 = "" then Except.error (SheetsErr.invalidRange range)
    else do
      let s ← a1ToRowCol p0
      let e ← a1ToRowCol p1
      pure ⟨s.1, e.1, s.2, e.2⟩
  | _ => Except.error (SheetsErr.invalidRange range)

/-- `SheetsUtils.createSheetRange`: `` `${sheetName}!${range}` `` when
`range` is truthy (present and non-empty), else the bare sheet name. -/
def createSheetRange (sheetName : String) (range : Option String) : String :=
  match range with
  | some r => if r = "" then sheetName else sheetName ++ "!" ++ r
  | none => sheetName

/-- `SheetsUtils.extractSheetName`: match `^([^!]+)!` and return the
captured prefix, else null. -/
def extractSheetName (range : String) : Option String :=
  let pre := range.toList.takeWhile (fun c => c != '!')
  if pre ≠ [] ∧ pre.length < range.toList.length then some ⟨pre⟩ else none

/-! ## Retry executor (`RetryUtil`) -/

/-- `RetryConfig` of the source; delays are milliseconds, modelled as
rationals. -/
structure RetryConfig where
  maxRetries : Nat
  baseDelay : Rat
  maxDelay : Rat
  backoffMultiplier : Rat

/-- `DEFAULT_RETRY_CONFIG`: maxRetries 3, baseDelay 1000ms, maxDelay
10000ms, backoffMultiplier 2. -/
def DEFAULT_RETRY_CONFIG : RetryConfig :=
  ⟨3, 1000, 10000, 2⟩

/-- A JavaScript error value as far as `isRetryableError` inspects it: an
optional string `code`, optional numeric `status`/`statusCode`, a
`message`, and whether it is an `instanceof RetryableError`. -/
structure JsError where
  code : Option String
  status : Option Nat
  statusCode : Option Nat
  message : String
  retryableInstance : Bool
  deriving DecidableEq, Repr

/-- The value of `error.status || error.statusCode` when truthy (a number
field is falsy when absent or 0), `none` when the whole expression is
falsy. -/
def selStatus (e : JsError) : Option Nat :=
  match e.status with
  | some s =>
    if s ≠ 0 then some s
    else match e.statusCode with
      | some t => if t ≠ 0 then some t else none
      | none => none
  | none =>
    match e.statusCode with
    | some t => if t ≠ 0 then some t else none
    | none => none

/-- Substring containment on character lists (JavaScript `includes`). -/
def listContainsSub (needle : List Char) : List Char → Bool
  | [] => needle.isEmpty
  | c :: rest => needle.isPrefixOf (c :: rest) || listContainsSub needle rest

/-- JavaScript `s.includes(sub)`. -/
def jsIncludes (s sub : String) : Bool :=
  listContainsSub sub.toList s.toList

/-- `RetryUtil.isRetryableError`: transient network codes, then (when a
truthy status is present) 5xx or 429, then quota / rate-limit message
sniffing, then `instanceof RetryableError`. -/
def isRetryableError (e : JsError) : Bool :=
  if e.code = some "ECONNRESET" ∨ e.code = some "ENOTFOUND" ∨ e.code = some "ETIMEDOUT" then
    true
  else
    match selStatus e with
    | some s => decide (500 ≤ s) || decide (s = 429)
    | none =>
      if jsIncludes e.message "quota" || jsIncludes e.message "rate limit" then true
      else e.retryableInstance

/-- `RetryUtil.calculateDelay`:
`min(baseDelay * backoffMultiplier ^ attempt, maxDelay)`. -/
def calculateDelay (attempt : Nat) (config : RetryConfig) : Rat :=
  min (config.baseDelay * config.backoffMultiplier ^ attempt) config.maxDelay

/-- Observable outcome of one `executeWithRetry` run: the propagated
result, how many times the operation was invoked, and the successive
backoff delays slept between invocations. -/
structure RunResult (α : Type) where
  result : Except JsError α
  calls : Nat
  delays : List Rat

/-- The `for (let attempt = 0; attempt <= maxRetries; attempt++)` loop of
`RetryUtil.executeWithRetry`.  `op i` is the outcome of the i-th
invocation (0-based); `rem = maxRetries - attempt` counts the retries
still allowed, so `rem = 0` is the `attempt === maxRetries` break that
rethrows the last error. -/
def retryGo {α : Type} (op : Nat → Except JsError α) (cfg : RetryConfig) :
    Nat → Nat → RunResult α
  | attempt, rem =>
    match op attempt with
    | Except.ok v => ⟨Except.ok v, 1, []⟩
    | Except.error e =>
      match rem with
      | 0 => ⟨Except.error e, 1, []⟩
      | r + 1 =>
        if isRetryableError e then
          let p := retryGo op cfg (attempt + 1) r
          ⟨p.result, p.calls + 1, calculateDelay attempt cfg :: p.delays⟩
        else ⟨Except.error e, 1, []⟩

/-- `RetryUtil.executeWithRetry fn config`: run the loop from attempt 0
with `maxRetries` retries remaining. -/
def executeWithRetry {α : Type} (op : Nat → Except JsError α) (cfg : RetryConfig) :
    RunResult α :=
  retryGo op cfg 0 cfg.maxRetries

/-! ## Rate limiter (`RateLimiter`)

Timestamps are milliseconds (`Date.now()`), modelled as integers.  The
model is the idealized serialized execution the specification assumes: a
sleep of `waitTime` wakes exactly `waitTime` later and no other admission
check interleaves, so `Date.now()` observed after the sleep is
`now + waitTime`. -/

/-- `Math.min(...list)` of a non-empty spread; `none` for the empty
spread (which `checkRateLimit` can only reach when `maxRequests = 0`). -/
def jsMinList : List Int → Option Int
  | [] => none
  | h :: t => some (t.foldl min h)

/-- The body of `RateLimiter.checkRateLimit`, with fuel for the
backoff-then-recheck recursion: purge timestamps older than the window,
admit (recording `now`) if below the limit, else sleep for
`windowMs - (now - oldest)` and re-check.  Each re-check drops the oldest
timestamp from the purged list, so `fuel = requests.length + 1` always
suffices (`checkRL_spec` proves the bound). -/
def checkRL (maxRequests windowMs : Nat) : Nat → List Int → Int → List Int × Int
  | 0, requests, now => (requests, now)
  | fuel + 1, requests, now =>
    if maxRequests ≤ (requests.filter (fun t => now - t < (windowMs : Int))).length then
      match jsMinList (requests.filter (fun t => now - t < (windowMs : Int))) with
      | some oldest =>
        if 0 < (windowMs : Int) - (now - oldest) then
          checkRL maxRequests windowMs fuel
            (requests.filter (fun t => now - t < (windowMs : Int)))
            (now + ((windowMs : Int) - (now - oldest)))
        else (requests.filter (fun t => now - t < (windowMs : Int)) ++ [now], now)
      | none => (requests.filter (fun t => now - t < (windowMs : Int)) ++ [now], now)
    else (requests.filter (fun t => now - t < (windowMs : Int)) ++ [now], now)

/-- `RateLimiter.checkRateLimit` on state `requests` at time `now`:
returns the new timestamp list and the admission time. -/
def checkRateLimit (maxRequests windowMs : Nat) (requests : List Int) (now : Int) :
    List Int × Int :=
  checkRL maxRequests windowMs (requests.length + 1) requests now

/-- Observation time of the next serialized call: at least the requested
issue time `t`, and (since the previous call completed at its admission
time) at least the previous admission time. -/
def effNow (last : Option Int) (t : Int) : Int :=
  match last with
  | none => t
  | some a => max t a

/-- A serialized sequence of `checkRateLimit` calls against one limiter
instance: thread the timestamp list through, observe each call at its
effective time, and collect the admission times. -/
def admitTimesGo (maxRequests windowMs : Nat) :
    List Int → Option Int → List Int → List Int
  | _, _, [] => []
  | st, last, t :: ts =>
    let p := checkRateLimit maxRequests windowMs st (effNow last t)
    p.2 :: admitTimesGo maxRequests windowMs p.1 (some p.2) ts

/-- Admission times of a serialized sequence of calls issued at times
`ts` against a fresh `RateLimiter maxRequests windowMs`. -/
def admitTimes (maxRequests windowMs : Nat) (ts : List Int) : List Int :=
  admitTimesGo maxRequests windowMs [] none ts

/-! ## Search/replace matching engine (`GoogleSheetsService`) -/

/-- A spreadsheet cell value: an opaque scalar (string, number, boolean)
or absent.  Numbers are modelled as integers. -/
inductive CellValue where
  | str (s : String)
  | num (n : Int)
  | boolean (b : Bool)
  | absent
  deriving DecidableEq, Repr

/-- JavaScript truthiness of a cell value, as used by the source's
`if (cellValue && ...)` and `if (!cellValue) continue`: absent, the empty
string, `0` and `false` are falsy. -/
def jsTruthy : CellValue → Bool
  | CellValue.str s => s != ""
  | CellValue.num n => n != 0
  | CellValue.boolean b => b
  | CellValue.absent => false

/-- `String(cellValue)` on the modelled scalars. -/
def jsToString : CellValue → String
  | CellValue.str s => s
  | CellValue.num n => toString n
  | CellValue.boolean b => if b then "true" else "false"
  | CellValue.absent => "undefined"

/-- `toLowerCase` on the ASCII fragment, at the character-list level. -/
def toLowerStr (s : String) : String :=
  ⟨s.toList.map Char.toLower⟩

/-- The column letter of 0-based column `colIndex`:
`rowColToA1(1, colIndex + 1).replace(/[0-9]/g, '')`. -/
def columnLetterOf (colIndex : Nat) : String :=
  ⟨(rowColToA1 1 (colIndex + 1)).toList.filter (fun c => !(isDigitCh c))⟩

/-- One hit of `GoogleSheetsService.search`. -/
structure SearchResult where
  cell : String
  value : CellValue
  row : Nat
  column : Nat
  sheetName : String
  deriving DecidableEq, Repr

/-- Whether the column filter admits 0-based column `colIndex`: the source
skips a cell only when `searchColumns` is supplied, non-empty, and does
not contain the cell's column letter. -/
def colFilterPass (searchColumns : Option (List String)) (colIndex : Nat) : Bool :=
  match searchColumns with
  | some sc => sc.isEmpty || sc.contains (columnLetterOf colIndex)
  | none => true

/-- The containment test of `search`:
`String(cellValue).toLowerCase().includes(searchText.toLowerCase())`. -/
def searchHit (searchText : String) (v : CellValue) : Bool :=
  jsIncludes (toLowerStr (jsToString v)) (toLowerStr searchText)

/-- The inner column loop of `search`, starting at 0-based column
`colIndex` within 0-based row `rowIndex`. -/
def searchRowFrom (sheetName searchText : String) (searchColumns : Option (List String))
    (rowIndex : Nat) : Nat → List CellValue → List SearchResult
  | _, [] => []
  | colIndex, v :: rest =>
    (if colFilterPass searchColumns colIndex then
      (if jsTruthy v && searchHit searchText v then
        [⟨rowColToA1 (rowIndex + 1) (colIndex + 1), v, rowIndex + 1, colIndex + 1, sheetName⟩]
      else [])
    else []) ++
      searchRowFrom sheetName searchText searchColumns rowIndex (colIndex + 1) rest

/-- The outer row loop of `search`. -/
def searchRowsFrom (sheetName searchText : String) (searchColumns : Option (List String)) :
    Nat → List (List CellValue) → List SearchResult
  | _, [] => []
  | rowIndex, row :: rest =>
    searchRowFrom sheetName searchText searchColumns rowIndex 0 row ++
      searchRowsFrom sheetName searchText searchColumns (rowIndex + 1) rest

/-- `GoogleSheetsService.search` over the grid read from the sheet:
row-major scan, skipping falsy cells and cells excluded by the column
filter, one result per cell whose text contains the search text
case-insensitively. -/
def search (data : List (List CellValue)) (sheetName searchText : String)
    (searchColumns : Option (List String)) : List SearchResult :=
  searchRowsFrom sheetName searchText searchColumns 0 data

/-- Single-character comparison under the regex `i` flag (ASCII). -/
def charCIEq (ci : Bool) (a b : Char) : Bool :=
  if ci then a.toLower == b.toLower else a == b

/-- Try to match `find` literally (case-insensitively when `ci`) at the
head of `rest`; on success return the consumed original characters and the
remainder. -/
def matchHead (ci : Bool) : List Char → List Char → Option (List Char × List Char)
  | [], rest => some ([], rest)
  | _ :: _, [] => none
  | f :: fs, c :: rs =>
    if charCIEq ci f c then
      match matchHead ci fs rs with
      | some (m, r) => some (c :: m, r)
      | none => none
    else none

/-- Expansion of a JavaScript replacement string for a pattern with no
capture groups (the source escapes every metacharacter of `findText`, so
its pattern has none): `$$` is a literal dollar, `$&` the matched text,
`$` followed by char 96 the text before the match, `$` followed by char
39 the text after it; everything else is literal. -/
def expandRepl (matched before after : List Char) : List Char → List Char
  | [] => []
  | [c] => [c]
  | c :: d :: rest =>
    if c = '$' then
      if d = '$' then '$' :: expandRepl matched before after rest
      else if d = '&' then matched ++ expandRepl matched before after rest
      else if d = Char.ofNat 96 then before ++ expandRepl matched before after rest
      else if d = Char.ofNat 39 then after ++ expandRepl matched before after rest
      else '$' :: d :: expandRepl matched before after rest
    else c :: expandRepl matched before after (d :: rest)

/-- The global-replace scan of
`String(cellValue).replace(new RegExp(escapedFind, matchCase ? 'g' : 'gi'), replaceText)`:
left to right, at each position try the literal pattern; on a non-empty
match emit the expanded replacement and continue after it; on an empty
match (empty `findText`) emit the replacement and advance one character;
otherwise copy one character.  `pre` is the scanned prefix, reversed; the
fuel `rest.length + 1` always suffices as each step consumes a character
or ends the scan. -/
def goRepl (ci : Bool) (find repl : List Char) : Nat → List Char → List Char → List Char
  | 0, _, _ => []
  | _ + 1, pre, [] =>
    match matchHead ci find [] with
    | some (m, r) => expandRepl m pre.reverse r repl
    | none => []
  | fuel + 1, pre, c :: rs =>
    match matchHead ci find (c :: rs) with
    | some (m, r) =>
      if m.isEmpty then
        expandRepl m pre.reverse r repl ++ c :: goRepl ci find repl fuel (c :: pre) rs
      else expandRepl m pre.reverse r repl ++ goRepl ci find repl fuel (m.reverse ++ pre) r
    | none => c :: goRepl ci find repl fuel (c :: pre) rs

/-- JavaScript `s.replace(new RegExp(escape(find), matchCase ? 'g' : 'gi'), repl)`. -/
def jsReplaceAll (matchCase : Bool) (find repl s : String) : String :=
  ⟨goRepl (!matchCase) find.toList repl.toList (s.toList.length + 1) [] s.toList⟩

/-- Cons a character onto the first segment of a parts/matches pair. -/
def consHead (c : Char) : List (List Char) × List (List Char) → List (List Char) × List (List Char)
  | (p :: ps, ms) => ((c :: p) :: ps, ms)
  | ([], ms) => ([[c]], ms)

/-- The same scan as `goRepl` recording, instead of the rewritten text,
the non-matched segments (`parts`) and the matched occurrences
(`matches`), in order. -/
def scanParts (ci : Bool) (find : List Char) : Nat → List Char → List (List Char) × List (List Char)
  | 0, _ => ([[]], [])
  | _ + 1, [] => ([[]], [])
  | fuel + 1, c :: rs =>
    match matchHead ci find (c :: rs) with
    | some (m, r) =>
      if m.isEmpty then consHead c (scanParts ci find fuel rs)
      else ([] :: (scanParts ci find fuel r).1, m :: (scanParts ci find fuel r).2)
    | none => consHead c (scanParts ci find fuel rs)

/-- Join segments with a fixed separator between consecutive segments. -/
def joinParts (sep : List Char) : List (List Char) → List Char
  | [] => []
  | [p] => p
  | p :: ps => p ++ sep ++ joinParts sep ps

/-- Interleave segments with the matched occurrences:
`p0 ++ m0 ++ p1 ++ m1 ++ ...`. -/
def interleave : List (List Char) → List (List Char) → List Char
  | [], _ => []
  | p :: _, [] => p
  | p :: ps, m :: ms => p ++ m ++ interleave ps ms

/-- One entry of `SmartReplaceResult.replacements` (the source also issues
exactly one `updateCell` write per entry, with the same cell and value). -/
structure Replacement where
  cell : String
  originalValue : String
  newValue : String
  deriving DecidableEq, Repr

/-- `matchCase ? s : s.toLowerCase()`, applied to both the cell text and
the search text. -/
def caseText (matchCase : Bool) (s : String) : String :=
  if matchCase then s else toLowerStr s

/-- The cell match test of `smartReplace`: whole-cell equality when
`matchEntireCell`, containment otherwise, both under the case rule. -/
def cellHit (matchCase matchEntireCell : Bool) (findText : String) (v : CellValue) : Bool :=
  if matchEntireCell then caseText matchCase (jsToString v) == caseText matchCase findText
  else jsIncludes (caseText matchCase (jsToString v)) (caseText matchCase findText)

/-- The `newValue` the source computes for a matched cell. -/
def newValueFor (matchCase matchEntireCell : Bool) (findText replaceText : String)
    (v : CellValue) : String :=
  if matchEntireCell then replaceText
  else jsReplaceAll matchCase findText replaceText (jsToString v)

/-- Cons a replacement for a matched cell onto the replacements of the
rest of the scan (the source pushes, then writes the cell, then continues). -/
def replaceCellCons (findText replaceText : String) (matchCase matchEntireCell : Bool)
    (rowIndex colIndex : Nat) (v : CellValue)
    (restRes : Except SheetsErr (List Replacement)) : Except SheetsErr (List Replacement) :=
  if cellHit matchCase matchEntireCell findText v then
    match restRes with
    | Except.ok reps =>
      Except.ok (⟨rowColToA1 (rowIndex + 1) (colIndex + 1), jsToString v,
        newValueFor matchCase matchEntireCell findText replaceText v⟩ :: reps)
    | Except.error e => Except.error e
  else restRes

/-- The per-cell range check of `smartReplace` at 1-based cell `(r, c)`,
mirroring the source's `if (range)` truthiness guard: with no range
option, or with the falsy empty range string, the restriction is skipped
and the cell passes; for a non-empty range string, parse it (per cell, as
the source does, propagating its parse error) and report whether the cell
lies inside the rectangle. -/
def rangeGate (rangeOpt : Option String) (r c : Nat) : Except SheetsErr Bool :=
  match rangeOpt with
  | none => Except.ok true
  | some rs =>
    if rs = "" then Except.ok true
    else
      match parseRange rs with
      | Except.error e => Except.error e
      | Except.ok q =>
        if r < q.startRow ∨ q.endRow < r ∨ c < q.startCol ∨ q.endCol < c then Except.ok false
        else Except.ok true

/-- The inner column loop of `smartReplace`: skip falsy cells; for a
truthy cell run the range gate (skipping cells outside the rectangle,
propagating a range parse error), then apply the match test. -/
def replaceRowFrom (findText replaceText : String) (rangeOpt : Option String)
    (matchCase matchEntireCell : Bool) (rowIndex : Nat) :
    Nat → List CellValue → Except SheetsErr (List Replacement)
  | _, [] => Except.ok []
  | colIndex, v :: rest =>
    if jsTruthy v then
      match rangeGate rangeOpt (rowIndex + 1) (colIndex + 1) with
      | Except.error e => Except.error e
      | Except.ok false =>
        replaceRowFrom findText replaceText rangeOpt matchCase matchEntireCell rowIndex
          (colIndex + 1) rest
      | Except.ok true =>
        replaceCellCons findText replaceText matchCase matchEntireCell rowIndex colIndex v
          (replaceRowFrom findText replaceText rangeOpt matchCase matchEntireCell rowIndex
            (colIndex + 1) rest)
    else
      replaceRowFrom findText replaceText rangeOpt matchCase matchEntireCell rowIndex
        (colIndex + 1) rest

/-- The outer row loop of `smartReplace`, concatenating per-row
replacements in row-major order. -/
def replaceRowsFrom (findText replaceText : String) (rangeOpt : Option String)
    (matchCase matchEntireCell : Bool) :
    Nat → List (List CellValue) → Except SheetsErr (List Replacement)
  | _, [] => Except.ok []
  | rowIndex, row :: rest =>
    match replaceRowFrom findText replaceText rangeOpt matchCase matchEntireCell rowIndex 0 row with
    | Except.error e => Except.error e
    | Except.ok reps1 =>
      match replaceRowsFrom findText replaceText rangeOpt matchCase matchEntireCell
          (rowIndex + 1) rest with
      | Except.error e => Except.error e
      | Except.ok reps2 => Except.ok (reps1 ++ reps2)

/-- `GoogleSheetsService.smartReplace` over the grid read from the sheet.
Returns the ordered replacement list (`modifiedCells` is its length; the
source issues one `updateCell` write per entry, in this order). -/
def smartReplace (data : List (List CellValue)) (findText replaceText : String)
    (rangeOpt : Option String) (matchCase matchEntireCell : Bool) :
    Except SheetsErr (List Replacement) :=
  replaceRowsFrom findText replaceText rangeOpt matchCase matchEntireCell 0 data

/-- The in-range condition for 1-based cell `(r, c)` under an optional
range restriction: no restriction, the (falsy, hence ignored) empty range
string, or membership in the parsed rectangle. -/
def RangePass (rangeOpt : Option String) (r c : Nat) : Prop :=
  match rangeOpt with
  | none => True
  | some rs => rs = "" ∨ ∃ q : ParsedRange, parseRange rs = Except.ok q ∧
      q.startRow ≤ r ∧ r ≤ q.endRow ∧ q.startCol ≤ c ∧ c ≤ q.endCol

end GSMCP

namespace GSMCP

/-! ## Helper lemmas for the coordinate engine -/

theorem colLettersFuel_congr :
    ∀ f1 f2 col, col ≤ f1 → col ≤ f2 →
      colLettersFuel f1 col = colLettersFuel f2 col := by
  intro f1
  induction f1 with
  | zero =>
    intro f2 col h1 _
    interval_cases col
    cases f2 <;> rfl
  | succ f ih =>
    intro f2 col h1 h2
    match col, f2 with
    | 0, f2 => cases f2 <;> rfl
    | col + 1, 0 => omega
    | col + 1, f2 + 1 =>
      simp only [colLettersFuel]
      rw [ih f2 (col / 26) (by omega) (by omega)]

theorem lettersVal_append_singleton (cs : List Char) (c : Char) :
    lettersVal (cs ++ [c]) = lettersVal cs * 26 + (c.toNat - 64) := by
  simp [lettersVal, List.foldl_append]

theorem charOfNat_letter_toNat : ∀ r < 26, (Char.ofNat (65 + r)).toNat = 65 + r := by
  decide

theorem charOfNat_digit_toNat : ∀ r < 10, (Char.ofNat (48 + r)).toNat = 48 + r := by
  decide

theorem lettersVal_colLettersFuel :
    ∀ fuel col, col ≤ fuel → lettersVal (colLettersFuel fuel col) = col := by
  intro fuel
  induction fuel with
  | zero =>
    intro col h
    interval_cases col
    simp [colLettersFuel, lettersVal]
  | succ f ih =>
    intro col h
    match col with
    | 0 => simp [colLettersFuel, lettersVal]
    | col + 1 =>
      simp only [colLettersFuel, lettersVal_append_singleton]
      rw [ih (col / 26) (by omega)]
      have hr : col % 26 < 26 := Nat.mod_lt _ (by omega)
      rw [charOfNat_letter_toNat _ hr]
      omega

theorem colLettersFuel_upper :
    ∀ fuel col c, c ∈ colLettersFuel fuel col → isUpperCh c = true := by
  intro fuel
  induction fuel with
  | zero => intro col c h; simp [colLettersFuel] at h
  | succ f ih =>
    intro col c h
    match col with
    | 0 => simp [colLettersFuel] at h
    | col + 1 =>
      simp only [colLettersFuel, List.mem_append, List.mem_singleton] at h
      rcases h with h | h
      · exact ih _ _ h
      · subst h
        have hr : col % 26 < 26 := Nat.mod_lt _ (by omega)
        have := charOfNat_letter_toNat _ hr
        simp [isUpperCh, this]
        omega

theorem colLettersFuel_ne_nil :
    ∀ fuel col, 1 ≤ col → col ≤ fuel → colLettersFuel fuel col ≠ [] := by
  intro fuel col h1 h2
  cases fuel with
  | zero => omega
  | succ f =>
    cases col with
    | zero => omega
    | succ c => simp [colLettersFuel]

theorem digitsVal_append_singleton (cs : List Char) (c : Char) :
    digitsVal (cs ++ [c]) = digitsVal cs * 10 + (c.toNat - 48) := by
  simp [digitsVal, List.foldl_append]

theorem digitsVal_natDigitsFuel :
    ∀ fuel n, n ≤ fuel → digitsVal (natDigitsFuel fuel n) = n := by
  intro fuel
  induction fuel with
  | zero =>
    intro n h
    interval_cases n
    simp [natDigitsFuel, digitsVal]
  | succ f ih =>
    intro n h
    match n with
    | 0 => simp [natDigitsFuel, digitsVal]
    | n + 1 =>
      simp only [natDigitsFuel, digitsVal_append_singleton]
      rw [ih ((n + 1) / 10) (by omega)]
      have hr : (n + 1) % 10 < 10 := Nat.mod_lt _ (by omega)
      rw [charOfNat_digit_toNat _ hr]
      omega

theorem natDigitsFuel_digit :
    ∀ fuel n c, c ∈ natDigitsFuel fuel n → isDigitCh c = true := by
  intro fuel
  induction fuel with
  | zero => intro n c h; simp [natDigitsFuel] at h
  | succ f ih =>
    intro n c h
    match n with
    | 0 => simp [natDigitsFuel] at h
    | n + 1 =>
      simp only [natDigitsFuel, List.mem_append, List.mem_singleton] at h
      rcases h with h | h
      · exact ih _ _ h
      · subst h
        have hr : (n + 1) % 10 < 10 := Nat.mod_lt _ (by omega)
        have := charOfNat_digit_toNat _ hr
        simp [isDigitCh, this]
        omega

theorem natDigitsFuel_ne_nil :
    ∀ fuel n, 1 ≤ n → n ≤ fuel → natDigitsFuel fuel n ≠ [] := by
  intro fuel n h1 h2
  cases fuel with
  | zero => omega
  | succ f =>
    cases n with
    | zero => omega
    | succ m => simp [natDigitsFuel]

theorem isDigitCh_not_upper (c : Char) (h : isDigitCh c = true) :
    isUpperCh c = false := by
  simp [isDigitCh] at h
  simp [isUpperCh]
  omega

theorem takeWhile_append_of_head (p : Char → Bool) (l1 : List Char) (c : Char)
    (l2 : List Char) (h1 : ∀ x ∈ l1, p x = true) (h2 : p c = false) :
    (l1 ++ c :: l2).takeWhile p = l1 ∧ (l1 ++ c :: l2).dropWhile p = c :: l2 := by
  induction l1 with
  | nil => simp [List.takeWhile, List.dropWhile, h2]
  | cons a l ih =>
    have ha : p a = true := h1 a (by simp)
    have := ih (fun x hx => h1 x (by simp [hx]))
    simp [List.takeWhile, List.dropWhile, ha, this.1, this.2]

end GSMCP

namespace GSMCP

/-! ## C1: the A1 encoder and decoder are mutual inverses -/

/-- C1: for every `row ≥ 1` and `col ≥ 1`,
`a1ToRowCol (rowColToA1 row col) = (row, col)`: the A1-notation encoder and
decoder are mutual inverses on all valid inputs. -/
theorem a1ToRowCol_rowColToA1 (row col : Nat) (hr : 1 ≤ row) (hc : 1 ≤ col) :
    a1ToRowCol (rowColToA1 row col) = Except.ok (row, col) := by
  have hrow0 : row ≠ 0 := by omega
  have hD := natDigitsFuel_ne_nil row row hr le_rfl
  obtain ⟨c, l2, hcl⟩ := List.exists_cons_of_ne_nil hD
  have hcmem : c ∈ natDigitsFuel row row := by rw [hcl]; simp
  have hcd : isDigitCh c = true := natDigitsFuel_digit row row c hcmem
  have hsplit := takeWhile_append_of_head isUpperCh (colLetters col) c l2
    (fun x hx => colLettersFuel_upper col col x hx) (isDigitCh_not_upper c hcd)
  have htolist : (rowColToA1 row col).toList = colLetters col ++ c :: l2 := by
    simp [rowColToA1, natToChars, hrow0, hcl, String.toList]
  simp only [a1ToRowCol, htolist, hsplit.1, hsplit.2]
  rw [if_pos]
  · have h1 : digitsVal (c :: l2) = row := by
      rw [← hcl]; exact digitsVal_natDigitsFuel row row le_rfl
    have h2 : lettersVal (colLetters col) = col :=
      lettersVal_colLettersFuel col col le_rfl
    rw [h1, h2]
  · refine ⟨colLettersFuel_ne_nil col col hc le_rfl, by simp, ?_⟩
    rw [← hcl]
    exact List.all_eq_true.mpr fun x hx => natDigitsFuel_digit row row x hx

/-- C1 witness: the round trip evaluated at row 10, column 27 (cell AA10). -/
theorem a1ToRowCol_rowColToA1_witness :
    a1ToRowCol (rowColToA1 10 27) = Except.ok (10, 27) :=
  a1ToRowCol_rowColToA1 10 27 (by decide) (by decide)

end GSMCP

namespace GSMCP

/-! ## C9: parseRange -/

/-- C9 counterexample: on `"A1:B"` the separator count is one and the right
side `"B"` is not a valid A1 address, yet `parseRange` fails with the
`Invalid A1 notation` error kind, not with `InvalidRange` as the claim
states. -/
theorem parseRange_badSide_not_invalidRange :
    parseRange "A1:B" = Except.error (SheetsErr.invalidA1 "B") ∧
    ∀ s, SheetsErr.invalidA1 "B" ≠ SheetsErr.invalidRange s := by
  constructor
  · rfl
  · intro s h
    cases h

/-- C9 (amended): `parseRange` splits on the colon separator and fails with
`InvalidRange` whenever the part count is not exactly two or a part is
empty; when both parts are non-empty it parses each side with the A1
address parser, propagating that parser's `Invalid A1 notation` error when
a side is invalid; on valid input it returns both endpoints, so that
`parseRange "A1:B10" = (1,1,10,2)`, `parseRange "Z1:AA10" = (1,26,10,27)`,
and `parseRange "invalid"` fails with `InvalidRange`. -/
theorem parseRange_spec :
    parseRange "A1:B10" = Except.ok ⟨1, 10, 1, 2⟩ ∧
    parseRange "Z1:AA10" = Except.ok ⟨1, 10, 26, 27⟩ ∧
    parseRange "invalid" = Except.error (SheetsErr.invalidRange "invalid") ∧
    (∀ r : String, (jsSplitColon r).length ≠ 2 →
      parseRange r = Except.error (SheetsErr.invalidRange r)) ∧
    (∀ r p0 p1 : String, jsSplitColon r = [p0, p1] → (p0 = "" ∨ p1 = "") →
      parseRange r = Except.error (SheetsErr.invalidRange r)) ∧
    (∀ r p0 p1 : String, ∀ a b : Nat × Nat, jsSplitColon r = [p0, p1] →
      p0 ≠ "" → p1 ≠ "" → a1ToRowCol p0 = Except.ok a → a1ToRowCol p1 = Except.ok b →
      parseRange r = Except.ok ⟨a.1, b.1, a.2, b.2⟩) ∧
    (∀ r p0 p1 : String, ∀ e : SheetsErr, jsSplitColon r = [p0, p1] →
      p0 ≠ "" → p1 ≠ "" → a1ToRowCol p0 = Except.error e →
      parseRange r = Except.error e) ∧
    (∀ r p0 p1 : String, ∀ a : Nat × Nat, ∀ e : SheetsErr,
      jsSplitColon r = [p0, p1] → p0 ≠ "" → p1 ≠ "" →
      a1ToRowCol p0 = Except.ok a → a1ToRowCol p1 = Except.error e →
      parseRange r = Except.error e) := by
  refine ⟨by rfl, by rfl, by rfl, ?_, ?_, ?_, ?_, ?_⟩
  · intro r h
    match hsp : jsSplitColon r with
    | [] => simp [parseRange, hsp]
    | [x] => simp [parseRange, hsp]
    | [x, y] => rw [hsp] at h; simp at h
    | x :: y :: z :: t => simp [parseRange, hsp]
  · intro r p0 p1 hsp hemp
    simp [parseRange, hsp, if_pos hemp]
  · intro r p0 p1 a b hsp h0 h1 ha hb
    have hemp : ¬(p0 = "" ∨ p1 = "") := by
      rintro (h | h) <;> [exact h0 h; exact h1 h]
    simp only [parseRange, hsp, if_neg hemp, ha, hb]
    rfl
  · intro r p0 p1 e hsp h0 h1 ha
    have hemp : ¬(p0 = "" ∨ p1 = "") := by
      rintro (h | h) <;> [exact h0 h; exact h1 h]
    simp only [parseRange, hsp, if_neg hemp, ha]
    rfl
  · intro r p0 p1 a e hsp h0 h1 ha hb
    have hemp : ¬(p0 = "" ∨ p1 = "") := by
      rintro (h | h) <;> [exact h0 h; exact h1 h]
    simp only [parseRange, hsp, if_neg hemp, ha, hb]
    rfl

/-- C9 witness: the valid-input clause of the amended theorem applied to
`"B2:C3"`. -/
theorem parseRange_spec_witness :
    parseRange "B2:C3" = Except.ok ⟨2, 3, 2, 3⟩ :=
  parseRange_spec.2.2.2.2.2.1 "B2:C3" "B2" "C3" (2, 2) (3, 3)
    (by rfl) (by decide) (by decide) (by rfl) (by rfl)

/-! ## C10: createSheetRange / extractSheetName round trip -/

/-- C10 counterexample: with the non-empty, bang-free sheet name
`"Sheet1"` and the range string `""`, `createSheetRange` returns the bare
sheet name (the empty range is falsy), from which `extractSheetName`
recovers `none` rather than the sheet name the claim demands. -/
theorem createSheetRange_empty_range :
    createSheetRange "Sheet1" (some "") = "Sheet1" ∧
    extractSheetName (createSheetRange "Sheet1" (some "")) = none ∧
    ("Sheet1" : String) ≠ "" ∧
    (∀ c ∈ ("Sheet1" : String).toList, c ≠ '!') := by
  refine ⟨by decide, by decide, by decide, by decide⟩

/-- C10 (amended): for every non-empty sheet name containing no `!` and
every NON-EMPTY range string,
`extractSheetName (createSheetRange sheetName range) = sheetName`; and
`createSheetRange sheetName` with no range is the bare sheet name, from
which `extractSheetName` returns `none`.  (For the empty range string the
source treats the range as absent and returns the bare sheet name.) -/
theorem createSheetRange_extractSheetName (sheetName range : String)
    (hn : sheetName ≠ "") (hb : ∀ c ∈ sheetName.toList, c ≠ '!')
    (hr : range ≠ "") :
    extractSheetName (createSheetRange sheetName (some range)) = some sheetName ∧
    createSheetRange sheetName none = sheetName ∧
    extractSheetName sheetName = none := by
  have hb' : ∀ c ∈ sheetName.toList, (c != '!') = true := by
    intro c hc
    simpa using hb c hc
  have hmk : (⟨sheetName.toList⟩ : String) = sheetName := by cases sheetName; rfl
  have hnil : sheetName.toList ≠ [] := by
    cases sheetName with
    | mk d => simpa [String.ext_iff] using hn
  refine ⟨?_, rfl, ?_⟩
  · have hcr : createSheetRange sheetName (some range) = sheetName ++ "!" ++ range := by
      simp [createSheetRange, hr]
    have htl : (sheetName ++ "!" ++ range).toList =
        sheetName.toList ++ '!' :: range.toList := by
      simp [String.toList, String.data_append]
    have hsplit := takeWhile_append_of_head (fun c => c != '!') sheetName.toList '!'
      range.toList hb' (by simp)
    rw [hcr]
    simp only [extractSheetName, htl, hsplit.1]
    rw [if_pos ⟨hnil, by simp⟩, hmk]
  · have hself : sheetName.toList.takeWhile (fun c => c != '!') = sheetName.toList :=
      List.takeWhile_eq_self_iff.mpr hb'
    simp only [extractSheetName, hself]
    rw [if_neg]
    simp

/-- C10 witness: the amended round trip at sheet name `"Sheet1"` and range
`"A1:B10"`. -/
theorem createSheetRange_extractSheetName_witness :
    extractSheetName (createSheetRange "Sheet1" (some "A1:B10")) = some "Sheet1" ∧
    createSheetRange "Sheet1" none = "Sheet1" ∧
    extractSheetName "Sheet1" = none :=
  createSheetRange_extractSheetName "Sheet1" "A1:B10" (by decide) (by decide) (by decide)

end GSMCP

namespace GSMCP

/-! ## Retry executor lemmas -/

theorem retryGo_calls_le {α : Type} (op : Nat → Except JsError α) (cfg : RetryConfig) :
    ∀ rem attempt, (retryGo op cfg attempt rem).calls ≤ rem + 1 := by
  intro rem
  induction rem with
  | zero =>
    intro attempt
    rw [retryGo]
    cases op attempt <;> simp
  | succ r ih =>
    intro attempt
    rw [retryGo]
    cases op attempt with
    | ok v => simp
    | error e =>
      by_cases hre : isRetryableError e
      · simp only [hre, if_true]
        have h := ih (attempt + 1)
        omega
      · simp [hre]

theorem retryGo_all_fail {α : Type} (op : Nat → Except JsError α) (cfg : RetryConfig)
    (errs : Nat → JsError) (hop : ∀ i, op i = Except.error (errs i))
    (hre : ∀ i, isRetryableError (errs i) = true) :
    ∀ rem attempt,
      (retryGo op cfg attempt rem).result = Except.error (errs (attempt + rem)) ∧
      (retryGo op cfg attempt rem).calls = rem + 1 := by
  intro rem
  induction rem with
  | zero =>
    intro attempt
    rw [retryGo, hop attempt]
    simp
  | succ r ih =>
    intro attempt
    rw [retryGo, hop attempt]
    simp only [hre attempt, if_true]
    have h := ih (attempt + 1)
    have hidx : attempt + 1 + r = attempt + (r + 1) := by omega
    constructor
    · rw [h.1, hidx]
    · rw [h.2]

/-- C2: for every retry config with `maxRetries = m` and every operation,
`executeWithRetry` invokes the operation at most `m + 1` times; if the
operation fails with a retryable error on every attempt, it is invoked
exactly `m + 1` times and the error of the last attempt is propagated
unmodified. -/
theorem executeWithRetry_exhaustion {α : Type} (cfg : RetryConfig)
    (op : Nat → Except JsError α) (errs : Nat → JsError) :
    (executeWithRetry op cfg).calls ≤ cfg.maxRetries + 1 ∧
    ((∀ i, op i = Except.error (errs i)) → (∀ i, isRetryableError (errs i) = true) →
      (executeWithRetry op cfg).result = Except.error (errs cfg.maxRetries) ∧
      (executeWithRetry op cfg).calls = cfg.maxRetries + 1) := by
  constructor
  · exact retryGo_calls_le op cfg cfg.maxRetries 0
  · intro hop hre
    have h := retryGo_all_fail op cfg errs hop hre cfg.maxRetries 0
    rw [Nat.zero_add] at h
    exact h

/-- C2 witness: `maxRetries = 2` with an operation that always fails with
a retryable (ECONNRESET) error: 3 invocations, the error propagates. -/
theorem executeWithRetry_exhaustion_witness :
    (executeWithRetry (α := Nat)
        (fun _ => Except.error ⟨some "ECONNRESET", none, none, "boom", false⟩)
        ⟨2, 1000, 10000, 2⟩).result =
      Except.error ⟨some "ECONNRESET", none, none, "boom", false⟩ ∧
    (executeWithRetry (α := Nat)
        (fun _ => Except.error ⟨some "ECONNRESET", none, none, "boom", false⟩)
        ⟨2, 1000, 10000, 2⟩).calls = 3 :=
  (executeWithRetry_exhaustion ⟨2, 1000, 10000, 2⟩
      (fun _ => Except.error ⟨some "ECONNRESET", none, none, "boom", false⟩)
      (fun _ => ⟨some "ECONNRESET", none, none, "boom", false⟩)).2
    (fun _ => rfl) (fun _ => by decide)

/-- C7: an error with none of the transient network codes, no truthy 5xx
or 429 status, no quota / rate-limit message and that is not a
RetryableError instance is classified non-retryable, and an operation
whose first invocation fails with such an error is invoked exactly once,
the error propagating immediately. -/
theorem executeWithRetry_nonretryable {α : Type} (e : JsError)
    (hcode : e.code ≠ some "ECONNRESET" ∧ e.code ≠ some "ENOTFOUND" ∧
      e.code ≠ some "ETIMEDOUT")
    (hstat : ∀ s, selStatus e = some s → s < 500 ∧ s ≠ 429)
    (hmsg : jsIncludes e.message "quota" = false ∧
      jsIncludes e.message "rate limit" = false)
    (hinst : e.retryableInstance = false) :
    isRetryableError e = false ∧
    ∀ (cfg : RetryConfig) (op : Nat → Except JsError α), op 0 = Except.error e →
      (executeWithRetry op cfg).result = Except.error e ∧
      (executeWithRetry op cfg).calls = 1 ∧
      (executeWithRetry op cfg).delays = [] := by
  have hret : isRetryableError e = false := by
    rw [isRetryableError, if_neg (by tauto)]
    cases hsel : selStatus e with
    | some s =>
      have := hstat s hsel
      simp only [Bool.or_eq_false_iff, decide_eq_false_iff_not]
      omega
    | none =>
      rw [if_neg (by simp [hmsg.1, hmsg.2])]
      exact hinst
  refine ⟨hret, ?_⟩
  intro cfg op hop
  rw [executeWithRetry, retryGo, hop]
  cases cfg.maxRetries with
  | zero => exact ⟨rfl, rfl, rfl⟩
  | succ r =>
    simp [hret]

/-- C7 witness: a 404 error propagates after a single invocation. -/
theorem executeWithRetry_nonretryable_witness :
    isRetryableError ⟨none, some 404, none, "Not found", false⟩ = false ∧
    (executeWithRetry (α := Nat)
        (fun _ => Except.error ⟨none, some 404, none, "Not found", false⟩)
        DEFAULT_RETRY_CONFIG).result =
      Except.error ⟨none, some 404, none, "Not found", false⟩ ∧
    (executeWithRetry (α := Nat)
        (fun _ => Except.error ⟨none, some 404, none, "Not found", false⟩)
        DEFAULT_RETRY_CONFIG).calls = 1 :=
  ⟨(executeWithRetry_nonretryable (α := Nat) ⟨none, some 404, none, "Not found", false⟩
      (by decide) (by intro s hs; simp [selStatus] at hs; omega)
      (by decide) rfl).1,
   ((executeWithRetry_nonretryable (α := Nat) ⟨none, some 404, none, "Not found", false⟩
      (by decide) (by intro s hs; simp [selStatus] at hs; omega)
      (by decide) rfl).2 DEFAULT_RETRY_CONFIG _ rfl).1,
   ((executeWithRetry_nonretryable (α := Nat) ⟨none, some 404, none, "Not found", false⟩
      (by decide) (by intro s hs; simp [selStatus] at hs; omega)
      (by decide) rfl).2 DEFAULT_RETRY_CONFIG _ rfl).2.1⟩

end GSMCP

namespace GSMCP

/-! ## C8: exponential backoff delays -/

theorem retryGo_delays_spec {α : Type} (op : Nat → Except JsError α) (cfg : RetryConfig) :
    ∀ rem attempt, ∃ k,
      (retryGo op cfg attempt rem).delays =
        (List.range k).map (fun j => calculateDelay (attempt + j) cfg) := by
  intro rem
  induction rem with
  | zero =>
    intro attempt
    rw [retryGo]
    cases op attempt with
    | ok v => exact ⟨0, by simp⟩
    | error e => exact ⟨0, by simp⟩
  | succ r ih =>
    intro attempt
    rw [retryGo]
    cases op attempt with
    | ok v => exact ⟨0, by simp⟩
    | error e =>
      by_cases hre : isRetryableError e
      · simp only [hre, if_true]
        obtain ⟨k, hk⟩ := ih (attempt + 1)
        refine ⟨k + 1, ?_⟩
        rw [hk, List.range_succ_eq_map, List.map_cons, List.map_map]
        congr 1
        apply List.map_congr_left
        intro a _
        simp only [Function.comp]
        congr 1
        omega
      · exact ⟨0, by simp [hre]⟩

/-- C8: for every attempt index `n`, the backoff delay slept before the
(n+2)-th invocation equals
`min (baseDelay * backoffMultiplier ^ n) maxDelay`, and (for a
configuration with non-negative base delay and multiplier at least 1, as
in the default) the delay sequence of a run is monotonically
non-decreasing and never exceeds `maxDelay`. -/
theorem executeWithRetry_backoff {α : Type} (cfg : RetryConfig)
    (op : Nat → Except JsError α) (hbase : 0 ≤ cfg.baseDelay)
    (hmult : 1 ≤ cfg.backoffMultiplier) :
    (∀ (i : Nat) (hi : i < (executeWithRetry op cfg).delays.length),
      (executeWithRetry op cfg).delays[i] =
        min (cfg.baseDelay * cfg.backoffMultiplier ^ i) cfg.maxDelay) ∧
    (∀ (i j : Nat) (hi : i < (executeWithRetry op cfg).delays.length)
      (hj : j < (executeWithRetry op cfg).delays.length), i ≤ j →
      (executeWithRetry op cfg).delays[i] ≤ (executeWithRetry op cfg).delays[j]) ∧
    (∀ d ∈ (executeWithRetry op cfg).delays, d ≤ cfg.maxDelay) := by
  obtain ⟨k, hk⟩ := retryGo_delays_spec op cfg cfg.maxRetries 0
  have hk' : (executeWithRetry op cfg).delays =
      (List.range k).map (fun j => calculateDelay j cfg) := by
    rw [executeWithRetry, hk]
    apply List.map_congr_left
    intro a _
    rw [Nat.zero_add]
  have hget : ∀ (i : Nat) (hi : i < (executeWithRetry op cfg).delays.length),
      (executeWithRetry op cfg).delays[i] =
        min (cfg.baseDelay * cfg.backoffMultiplier ^ i) cfg.maxDelay := by
    intro i hi
    have hmain : (executeWithRetry op cfg).delays[i] = calculateDelay i cfg := by
      simp only [hk', List.getElem_map, List.getElem_range]
    rw [hmain]
    rfl
  refine ⟨hget, ?_, ?_⟩
  · intro i j hi hj hij
    rw [hget i hi, hget j hj]
    refine min_le_min ?_ le_rfl
    refine mul_le_mul_of_nonneg_left ?_ hbase
    exact pow_le_pow_right₀ hmult hij
  · intro d hd
    rw [hk'] at hd
    obtain ⟨j, _, rfl⟩ := List.mem_map.mp hd
    exact min_le_right _ _

/-- C8 witness: the first backoff delay of a run under the default
configuration equals the claimed formula at attempt index 0. -/
theorem executeWithRetry_backoff_witness :
    (executeWithRetry (α := Nat)
        (fun _ => Except.error ⟨some "ECONNRESET", none, none, "x", false⟩)
        DEFAULT_RETRY_CONFIG).delays.head? =
      some (min (DEFAULT_RETRY_CONFIG.baseDelay * DEFAULT_RETRY_CONFIG.backoffMultiplier ^ 0)
        DEFAULT_RETRY_CONFIG.maxDelay) := by
  have hlen : 0 < (executeWithRetry (α := Nat)
      (fun _ => Except.error ⟨some "ECONNRESET", none, none, "x", false⟩)
      DEFAULT_RETRY_CONFIG).delays.length := by decide
  have h := (executeWithRetry_backoff DEFAULT_RETRY_CONFIG
      (fun _ => Except.error ⟨some "ECONNRESET", none, none, "x", false⟩)
      (by norm_num [DEFAULT_RETRY_CONFIG]) (by norm_num [DEFAULT_RETRY_CONFIG])).1
    0 hlen
  rw [List.head?_eq_getElem?, List.getElem?_eq_getElem hlen, h]

end GSMCP

namespace GSMCP

/-! ## C3: rate limiter window invariant -/

theorem foldl_min_mem : ∀ (t : List Int) (a : Int), t.foldl min a ∈ a :: t := by
  intro t
  induction t with
  | nil => intro a; simp
  | cons b t ih =>
    intro a
    simp only [List.foldl_cons]
    rcases min_choice a b with hm | hm
    · rw [hm]
      rcases List.mem_cons.mp (ih a) with h' | h' <;> simp [h']
    · rw [hm]
      rcases List.mem_cons.mp (ih b) with h' | h' <;> simp [h']

theorem jsMinList_mem {l : List Int} {m : Int} (h : jsMinList l = some m) : m ∈ l := by
  cases l with
  | nil => simp [jsMinList] at h
  | cons a t =>
    simp only [jsMinList, Option.some_inj] at h
    subst h
    exact foldl_min_mem t a

theorem checkRL_spec (maxReq W : Nat) (hmax : 1 ≤ maxReq) :
    ∀ (fuel : Nat) (requests : List Int) (now : Int),
      (requests.filter (fun t => decide (now - t < (W : Int)))).length < fuel →
      ∃ a : Int,
        checkRL maxReq W fuel requests now =
          (requests.filter (fun t => decide (a - t < (W : Int))) ++ [a], a) ∧
        now ≤ a ∧
        (requests.filter (fun t => decide (a - t < (W : Int)))).length < maxReq := by
  intro fuel
  induction fuel with
  | zero => intro requests now h; omega
  | succ f ih =>
    intro requests now h
    by_cases hfull : maxReq ≤ (requests.filter (fun t => decide (now - t < (W : Int)))).length
    · cases hmin : jsMinList (requests.filter (fun t => decide (now - t < (W : Int)))) with
      | none =>
        cases hl : requests.filter (fun t => decide (now - t < (W : Int))) with
        | nil => rw [hl] at hfull; simp at hfull; omega
        | cons x xs => rw [hl] at hmin; simp [jsMinList] at hmin
      | some oldest =>
        have hmem : oldest ∈ requests.filter (fun t => decide (now - t < (W : Int))) :=
          jsMinList_mem hmin
        have hpred : now - oldest < (W : Int) := by
          have := (List.mem_filter.mp hmem).2
          simpa using this
        have hwpos : (0 : Int) < (W : Int) - (now - oldest) := by omega
        have hnotnew : ¬ ((now + ((W : Int) - (now - oldest))) - oldest < (W : Int)) := by
          omega
        have hlen : ((requests.filter (fun t => decide (now - t < (W : Int)))).filter
            (fun t => decide ((now + ((W : Int) - (now - oldest))) - t < (W : Int)))).length <
            (requests.filter (fun t => decide (now - t < (W : Int)))).length := by
          rw [List.length_filter_lt_length_iff_exists]
          exact ⟨oldest, hmem, by simpa using hnotnew⟩
        obtain ⟨a, heq, hle, hcnt⟩ :=
          ih (requests.filter (fun t => decide (now - t < (W : Int))))
            (now + ((W : Int) - (now - oldest))) (by omega)
        have hcomp : (requests.filter (fun t => decide (now - t < (W : Int)))).filter
            (fun t => decide (a - t < (W : Int))) =
            requests.filter (fun t => decide (a - t < (W : Int))) := by
          rw [List.filter_filter]
          apply List.filter_congr
          intro x _
          by_cases hax : a - x < (W : Int)
          · have hnx : now - x < (W : Int) := by omega
            simp [hax, hnx]
          · simp [hax]
        refine ⟨a, ?_, by omega, ?_⟩
        · rw [checkRL, if_pos hfull, hmin]
          simp only [if_pos hwpos]
          rw [heq, hcomp]
        · rw [← hcomp]
          exact hcnt
    · refine ⟨now, ?_, le_rfl, by omega⟩
      rw [checkRL, if_neg hfull]

end GSMCP

namespace GSMCP

theorem admitTimesGo_window (maxReq W : Nat) (hmax : 1 ≤ maxReq) :
    ∀ (ts st : List Int) (last : Option Int) (A : List Int),
      (∀ a0 : Int, last = some a0 →
        (∀ p : Int, a0 - p < (W : Int) → A.count p = st.count p) ∧ (∀ p ∈ A, p ≤ a0)) →
      (last = none → A = [] ∧ st = []) →
      (∀ y : Int, (A.filter (fun p => decide (y ≤ p ∧ p < y + (W : Int)))).length ≤ maxReq) →
      ∀ x : Int,
        ((A ++ admitTimesGo maxReq W st last ts).filter
          (fun p => decide (x ≤ p ∧ p < x + (W : Int)))).length ≤ maxReq := by
  intro ts
  induction ts with
  | nil =>
    intro st last A hsome hnone hWB x
    simpa [admitTimesGo] using hWB x
  | cons t ts ih =>
    intro st last A hsome hnone hWB x
    have hfl : (st.filter (fun t2 => decide (effNow last t - t2 < (W : Int)))).length <
        st.length + 1 := Nat.lt_succ_of_le (List.length_filter_le _ _)
    obtain ⟨a, heq, hle, hcnt⟩ :=
      checkRL_spec maxReq W hmax (st.length + 1) st (effNow last t) hfl
    have hA_le_a : ∀ p ∈ A, p ≤ a := by
      intro p hp
      cases last with
      | none =>
        rw [(hnone rfl).1] at hp
        cases hp
      | some a0 =>
        have h1 := (hsome a0 rfl).2 p hp
        have h2 : a0 ≤ effNow (some a0) t := le_max_right t a0
        omega
    have hA_count : ∀ p : Int, a - p < (W : Int) → A.count p = st.count p := by
      intro p hp
      cases last with
      | none => rw [(hnone rfl).1, (hnone rfl).2]
      | some a0 =>
        apply (hsome a0 rfl).1 p
        have h2 : a0 ≤ effNow (some a0) t := le_max_right t a0
        omega
    have hkey : ∀ y : Int, y ≤ a → a < y + (W : Int) →
        (A.filter (fun p => decide (y ≤ p ∧ p < y + (W : Int)))).length ≤
        (st.filter (fun t2 => decide (a - t2 < (W : Int)))).length := by
      intro y hy1 hy2
      apply List.Subperm.length_le
      rw [List.subperm_ext_iff]
      intro p hp
      have hpx : y ≤ p ∧ p < y + (W : Int) := by
        have := (List.mem_filter.mp hp).2
        simpa using this
      have haw : a - p < (W : Int) := by omega
      calc (A.filter (fun q => decide (y ≤ q ∧ q < y + (W : Int)))).count p ≤ A.count p :=
            (List.filter_sublist A).count_le p
        _ = st.count p := hA_count p haw
        _ = (st.filter (fun t2 => decide (a - t2 < (W : Int)))).count p :=
            (List.count_filter (by simpa using haw)).symm
    have hrun : admitTimesGo maxReq W st last (t :: ts) =
        a :: admitTimesGo maxReq W
          (st.filter (fun t2 => decide (a - t2 < (W : Int))) ++ [a]) (some a) ts := by
      rw [admitTimesGo]
      simp only [checkRateLimit]
      rw [heq]
    rw [hrun, List.append_cons]
    apply ih (st.filter (fun t2 => decide (a - t2 < (W : Int))) ++ [a]) (some a) (A ++ [a])
    · intro a0 ha0
      have haa : a0 = a := by injection ha0 with h; exact h.symm
      subst haa
      constructor
      · intro p hpw
        rw [List.count_append, List.count_append,
          List.count_filter (by simpa using hpw), hA_count p hpw]
      · intro p hp
        rcases List.mem_append.mp hp with h | h
        · exact le_trans (hA_le_a p h) le_rfl
        · simp only [List.mem_singleton] at h
          exact le_of_eq h
    · intro h
      cases h
    · intro y
      rw [List.filter_append]
      by_cases hin : y ≤ a ∧ a < y + (W : Int)
      · have hone : List.filter (fun p => decide (y ≤ p ∧ p < y + (W : Int))) [a] = [a] := by
          simp [hin]
        rw [hone, List.length_append]
        have h1 := hkey y hin.1 hin.2
        simp only [List.length_singleton]
        omega
      · have hzero : List.filter (fun p => decide (y ≤ p ∧ p < y + (W : Int))) [a] = [] := by
          simp [hin]
        rw [hzero, List.append_nil]
        exact hWB y

/-- C3: for a single serialized RateLimiter instance with
`maxRequests ≥ 1`, every rolling window of length `windowMs` contains at
most `maxRequests` admissions; and with 2 calls per 1000ms, a third call
issued immediately after two admissions at time 0 is suspended until time
1000 (the remainder of the window of the oldest recorded call) rather
than admitted immediately. -/
theorem rateLimiter_window_bound (maxReq W : Nat) (hmax : 1 ≤ maxReq)
    (ts : List Int) (x : Int) :
    ((admitTimes maxReq W ts).filter
      (fun p => decide (x ≤ p ∧ p < x + (W : Int)))).length ≤ maxReq ∧
    admitTimes 2 1000 [0, 0, 0] = [0, 0, 1000] := by
  constructor
  · have h := admitTimesGo_window maxReq W hmax ts [] none []
      (by intro a0 h0; exact absurd h0 (by simp)) (fun _ => ⟨rfl, rfl⟩)
      (by intro y; simp) x
    simpa [admitTimes] using h
  · decide

/-- C3 witness: the window bound instantiated at the 2-per-1000ms
configuration with three calls issued at time 0, window anchored at 0. -/
theorem rateLimiter_window_bound_witness :
    ((admitTimes 2 1000 [0, 0, 0]).filter
      (fun p => decide ((0 : Int) ≤ p ∧ p < 0 + ((1000 : Nat) : Int)))).length ≤ 2 ∧
    admitTimes 2 1000 [0, 0, 0] = [0, 0, 1000] :=
  rateLimiter_window_bound 2 1000 (by decide) [0, 0, 0] 0

end GSMCP

namespace GSMCP

/-! ## C4: search -/

theorem searchRowFrom_mem (sheetName searchText : String) (cols : Option (List String))
    (rowIndex : Nat) :
    ∀ (colIndex : Nat) (row : List CellValue) (res : SearchResult),
      res ∈ searchRowFrom sheetName searchText cols rowIndex colIndex row ↔
      ∃ j v, row[j]? = some v ∧ jsTruthy v = true ∧
        colFilterPass cols (colIndex + j) = true ∧ searchHit searchText v = true ∧
        res = ⟨rowColToA1 (rowIndex + 1) (colIndex + j + 1), v, rowIndex + 1,
          colIndex + j + 1, sheetName⟩ := by
  intro colIndex row
  induction row generalizing colIndex with
  | nil =>
    intro res
    simp [searchRowFrom]
  | cons v rest ih =>
    intro res
    simp only [searchRowFrom, List.mem_append]
    constructor
    · rintro (h | h)
      · by_cases hcf : colFilterPass cols colIndex = true
        · by_cases hvt : (jsTruthy v && searchHit searchText v) = true
          · simp only [hcf, if_true, hvt, List.mem_singleton] at h
            obtain ⟨h2, h4⟩ := Bool.and_eq_true_iff.mp hvt
            refine ⟨0, v, by simp, h2, by simpa using hcf, h4, by simpa using h⟩
          · simp [hcf, hvt] at h
        · simp [hcf] at h
      · obtain ⟨j, v', h1, h2, h3, h4, h5⟩ := (ih (colIndex + 1) res).mp h
        refine ⟨j + 1, v', by simpa using h1, h2, ?_, h4, ?_⟩
        · have he : colIndex + (j + 1) = colIndex + 1 + j := by omega
          rw [he]
          exact h3
        · have he : colIndex + (j + 1) + 1 = colIndex + 1 + j + 1 := by omega
          rw [he]
          exact h5
    · rintro ⟨j, v', h1, h2, h3, h4, h5⟩
      cases j with
      | zero =>
        left
        simp only [List.getElem?_cons_zero, Option.some_inj] at h1
        subst h1
        have hcf : colFilterPass cols colIndex = true := by simpa using h3
        have hvt : (jsTruthy v && searchHit searchText v) = true := by
          rw [h2, h4]
          rfl
        rw [if_pos hcf, if_pos hvt, List.mem_singleton]
        simpa using h5
      | succ j' =>
        right
        apply (ih (colIndex + 1) res).mpr
        refine ⟨j', v', by simpa using h1, h2, ?_, h4, ?_⟩
        · have he : colIndex + 1 + j' = colIndex + (j' + 1) := by omega
          rw [he]
          exact h3
        · have he : colIndex + 1 + j' + 1 = colIndex + (j' + 1) + 1 := by omega
          rw [he]
          exact h5

theorem searchRowsFrom_mem (sheetName searchText : String) (cols : Option (List String)) :
    ∀ (rowIndex : Nat) (data : List (List CellValue)) (res : SearchResult),
      res ∈ searchRowsFrom sheetName searchText cols rowIndex data ↔
      ∃ i row j v, data[i]? = some row ∧ row[j]? = some v ∧ jsTruthy v = true ∧
        colFilterPass cols j = true ∧ searchHit searchText v = true ∧
        res = ⟨rowColToA1 (rowIndex + i + 1) (j + 1), v, rowIndex + i + 1, j + 1,
          sheetName⟩ := by
  intro rowIndex data
  induction data generalizing rowIndex with
  | nil =>
    intro res
    simp [searchRowsFrom]
  | cons row rest ih =>
    intro res
    simp only [searchRowsFrom, List.mem_append]
    constructor
    · rintro (h | h)
      · obtain ⟨j, v, h1, h2, h3, h4, h5⟩ :=
          (searchRowFrom_mem sheetName searchText cols rowIndex 0 row res).mp h
        refine ⟨0, row, j, v, by simp, h1, h2, by simpa using h3, h4, ?_⟩
        simpa using h5
      · obtain ⟨i, row', j, v, h1, h2, h3, h4, h5, h6⟩ := (ih (rowIndex + 1) res).mp h
        refine ⟨i + 1, row', j, v, by simpa using h1, h2, h3, h4, h5, ?_⟩
        have he : rowIndex + (i + 1) + 1 = rowIndex + 1 + i + 1 := by omega
        rw [he]
        exact h6
    · rintro ⟨i, row', j, v, h1, h2, h3, h4, h5, h6⟩
      cases i with
      | zero =>
        left
        simp only [List.getElem?_cons_zero, Option.some_inj] at h1
        subst h1
        apply (searchRowFrom_mem sheetName searchText cols rowIndex 0 row res).mpr
        refine ⟨j, v, h2, h3, by simpa using h4, h5, ?_⟩
        simpa using h6
      | succ i' =>
        right
        apply (ih (rowIndex + 1) res).mpr
        refine ⟨i', row', j, v, by simpa using h1, h2, h3, h4, h5, ?_⟩
        have he : rowIndex + 1 + i' + 1 = rowIndex + (i' + 1) + 1 := by omega
        rw [he]
        exact h6

end GSMCP

namespace GSMCP

theorem searchRowFrom_shape (sheetName searchText : String) (cols : Option (List String))
    (rowIndex colIndex : Nat) (row : List CellValue) (res : SearchResult)
    (h : res ∈ searchRowFrom sheetName searchText cols rowIndex colIndex row) :
    res.row = rowIndex + 1 ∧ colIndex + 1 ≤ res.column := by
  obtain ⟨j, v, _, _, _, _, h5⟩ :=
    (searchRowFrom_mem sheetName searchText cols rowIndex colIndex row res).mp h
  subst h5
  refine ⟨rfl, ?_⟩
  show colIndex + 1 ≤ colIndex + j + 1
  omega

theorem searchRowsFrom_shape (sheetName searchText : String) (cols : Option (List String))
    (rowIndex : Nat) (data : List (List CellValue)) (res : SearchResult)
    (h : res ∈ searchRowsFrom sheetName searchText cols rowIndex data) :
    rowIndex + 1 ≤ res.row := by
  obtain ⟨i, row, j, v, _, _, _, _, _, h6⟩ :=
    (searchRowsFrom_mem sheetName searchText cols rowIndex data res).mp h
  subst h6
  show rowIndex + 1 ≤ rowIndex + i + 1
  omega

theorem searchRowFrom_pairwise (sheetName searchText : String) (cols : Option (List String))
    (rowIndex : Nat) :
    ∀ (colIndex : Nat) (row : List CellValue),
      List.Pairwise
        (fun r1 r2 => r1.row < r2.row ∨ (r1.row = r2.row ∧ r1.column < r2.column))
        (searchRowFrom sheetName searchText cols rowIndex colIndex row) := by
  intro colIndex row
  induction row generalizing colIndex with
  | nil => simp [searchRowFrom]
  | cons v rest ih =>
    simp only [searchRowFrom]
    apply List.pairwise_append.mpr
    refine ⟨?_, ih (colIndex + 1), ?_⟩
    · split
      · split
        · simp
        · simp
      · simp
    · intro r1 h1 r2 h2
      have hs2 := searchRowFrom_shape sheetName searchText cols rowIndex (colIndex + 1) rest r2 h2
      have hr1 : r1.row = rowIndex + 1 ∧ r1.column = colIndex + 1 := by
        split at h1
        · split at h1
          · simp only [List.mem_singleton] at h1
            subst h1
            exact ⟨rfl, rfl⟩
          · simp at h1
        · simp at h1
      right
      refine ⟨by rw [hr1.1, hs2.1], ?_⟩
      omega

theorem searchRowsFrom_pairwise (sheetName searchText : String) (cols : Option (List String)) :
    ∀ (rowIndex : Nat) (data : List (List CellValue)),
      List.Pairwise
        (fun r1 r2 => r1.row < r2.row ∨ (r1.row = r2.row ∧ r1.column < r2.column))
        (searchRowsFrom sheetName searchText cols rowIndex data) := by
  intro rowIndex data
  induction data generalizing rowIndex with
  | nil => simp [searchRowsFrom]
  | cons row rest ih =>
    simp only [searchRowsFrom]
    apply List.pairwise_append.mpr
    refine ⟨searchRowFrom_pairwise sheetName searchText cols rowIndex 0 row,
      ih (rowIndex + 1), ?_⟩
    intro r1 h1 r2 h2
    have hs1 := searchRowFrom_shape sheetName searchText cols rowIndex 0 row r1 h1
    have hs2 := searchRowsFrom_shape sheetName searchText cols (rowIndex + 1) rest r2 h2
    left
    omega

/-- C4 counterexample: (i) the cell value `""` is non-absent and the
case-insensitive containment test of the empty search text against it
succeeds, yet `search` produces no match for it (the source skips falsy
cells before the test); (ii) with a supplied EMPTY column filter, a cell
in column A lies outside the filter set, yet it is still matched (the
source ignores an empty filter). -/
theorem search_counterexample :
    search [[CellValue.str ""]] "s" "" none = [] ∧
    (CellValue.str "" ≠ CellValue.absent) ∧
    jsIncludes (toLowerStr (jsToString (CellValue.str ""))) (toLowerStr "") = true ∧
    search [[CellValue.str "a"]] "s" "a" (some []) =
      [⟨"A1", CellValue.str "a", 1, 1, "s"⟩] := by
  refine ⟨by decide, by decide, by decide, by decide⟩

/-- C4 (amended): `search` scans rows top-to-bottom and columns
left-to-right and, for each TRUTHY cell (absent cells, and the falsy
values `""`, `0`, `false`, are skipped before the test) that passes the
column-letter filter — where a supplied EMPTY filter behaves like no
filter — performs a case-insensitive substring containment test of the
search text against the cell text, producing exactly one Match per
matching cell in row-major scan order; on the grid
`[["Name","City"],["John","Seoul"],["Jane","Busan"]]` with searchText
`"Seoul"` it returns exactly one match at row 2, column 2. -/
theorem search_spec (data : List (List CellValue)) (sheetName searchText : String)
    (cols : Option (List String)) :
    (∀ res : SearchResult, res ∈ search data sheetName searchText cols ↔
      ∃ i row j v, data[i]? = some row ∧ row[j]? = some v ∧ jsTruthy v = true ∧
        colFilterPass cols j = true ∧ searchHit searchText v = true ∧
        res = ⟨rowColToA1 (i + 1) (j + 1), v, i + 1, j + 1, sheetName⟩) ∧
    List.Pairwise (fun r1 r2 => r1.row < r2.row ∨ (r1.row = r2.row ∧ r1.column < r2.column))
      (search data sheetName searchText cols) ∧
    search [[CellValue.str "Name", CellValue.str "City"],
      [CellValue.str "John", CellValue.str "Seoul"],
      [CellValue.str "Jane", CellValue.str "Busan"]] "Sheet1" "Seoul" none =
      [⟨"B2", CellValue.str "Seoul", 2, 2, "Sheet1"⟩] := by
  refine ⟨?_, searchRowsFrom_pairwise sheetName searchText cols 0 data, by decide⟩
  intro res
  rw [search, searchRowsFrom_mem]
  constructor
  · rintro ⟨i, row, j, v, h1, h2, h3, h4, h5, h6⟩
    refine ⟨i, row, j, v, h1, h2, h3, h4, h5, ?_⟩
    simpa using h6
  · rintro ⟨i, row, j, v, h1, h2, h3, h4, h5, h6⟩
    refine ⟨i, row, j, v, h1, h2, h3, h4, h5, ?_⟩
    simpa using h6

end GSMCP

namespace GSMCP

/-! ## C5/C6: smartReplace -/

theorem rangeGate_true_iff (rng : Option String) (r c : Nat) :
    rangeGate rng r c = Except.ok true ↔ RangePass rng r c := by
  cases rng with
  | none => simp [rangeGate, RangePass]
  | some rs =>
    simp only [rangeGate, RangePass]
    by_cases hrs : rs = ""
    · rw [if_pos hrs]
      simp [hrs]
    · rw [if_neg hrs]
      cases hpr : parseRange rs with
      | error e =>
        constructor
        · intro h
          exact absurd h (by simp)
        · rintro (h | ⟨q, hq, _⟩)
          · exact absurd h hrs
          · exact absurd hq (by simp)
      | ok q =>
        show (if r < q.startRow ∨ q.endRow < r ∨ c < q.startCol ∨ q.endCol < c then
            (Except.ok false : Except SheetsErr Bool) else Except.ok true) = Except.ok true ↔
          rs = "" ∨ ∃ q2 : ParsedRange, Except.ok q = Except.ok q2 ∧ q2.startRow ≤ r ∧
            r ≤ q2.endRow ∧ q2.startCol ≤ c ∧ c ≤ q2.endCol
        by_cases hout : r < q.startRow ∨ q.endRow < r ∨ c < q.startCol ∨ q.endCol < c
        · rw [if_pos hout]
          constructor
          · intro h
            exact absurd h (by simp)
          · rintro (h | ⟨q2, hq2, h1, h2, h3, h4⟩)
            · exact absurd h hrs
            · obtain rfl : q = q2 := by cases hq2; rfl
              omega
        · rw [if_neg hout]
          constructor
          · intro _
            exact Or.inr ⟨q, rfl, by omega, by omega, by omega, by omega⟩
          · intro _
            rfl

theorem replaceRowFrom_ok_mem (find repl : String) (rng : Option String) (mc me : Bool)
    (ri : Nat) :
    ∀ (ci : Nat) (row : List CellValue) (reps : List Replacement),
      replaceRowFrom find repl rng mc me ri ci row = Except.ok reps →
      ∀ rep, rep ∈ reps ↔ ∃ j v, row[j]? = some v ∧ jsTruthy v = true ∧
        RangePass rng (ri + 1) (ci + j + 1) ∧ cellHit mc me find v = true ∧
        rep = ⟨rowColToA1 (ri + 1) (ci + j + 1), jsToString v,
          newValueFor mc me find repl v⟩ := by
  intro ci row
  induction row generalizing ci with
  | nil =>
    intro reps hok rep
    simp only [replaceRowFrom] at hok
    obtain rfl : reps = [] := by cases hok; rfl
    simp
  | cons v rest ih =>
    intro reps hok rep
    simp only [replaceRowFrom] at hok
    by_cases htr : jsTruthy v = true
    · rw [if_pos htr] at hok
      cases hg : rangeGate rng (ri + 1) (ci + 1) with
      | error e =>
        rw [hg] at hok
        exact absurd hok (by simp)
      | ok b =>
        rw [hg] at hok
        cases b with
        | false =>
          replace hok : replaceRowFrom find repl rng mc me ri (ci + 1) rest =
            Except.ok reps := hok
          rw [ih (ci + 1) reps hok rep]
          constructor
          · rintro ⟨j, v', h1, h2, h3, h4, h5⟩
            refine ⟨j + 1, v', by simpa using h1, h2, ?_, h4, ?_⟩
            · rw [show ci + (j + 1) + 1 = ci + 1 + j + 1 by omega]
              exact h3
            · rw [show ci + (j + 1) + 1 = ci + 1 + j + 1 by omega]
              exact h5
          · rintro ⟨j, v', h1, h2, h3, h4, h5⟩
            cases j with
            | zero =>
              simp only [List.getElem?_cons_zero, Option.some_inj] at h1
              subst h1
              exfalso
              have hgt : rangeGate rng (ri + 1) (ci + 1) = Except.ok true := by
                apply (rangeGate_true_iff rng (ri + 1) (ci + 1)).mpr
                simpa using h3
              rw [hg] at hgt
              exact absurd hgt (by simp)
            | succ j' =>
              refine ⟨j', v', by simpa using h1, h2, ?_, h4, ?_⟩
              · rw [show ci + 1 + j' + 1 = ci + (j' + 1) + 1 by omega]
                exact h3
              · rw [show ci + 1 + j' + 1 = ci + (j' + 1) + 1 by omega]
                exact h5
        | true =>
          replace hok : replaceCellCons find repl mc me ri ci v
              (replaceRowFrom find repl rng mc me ri (ci + 1) rest) =
            Except.ok reps := hok
          have hpass : RangePass rng (ri + 1) (ci + 1) :=
            (rangeGate_true_iff rng (ri + 1) (ci + 1)).mp hg
          by_cases hhit : cellHit mc me find v = true
          · unfold replaceCellCons at hok
            rw [if_pos hhit] at hok
            cases hrec : replaceRowFrom find repl rng mc me ri (ci + 1) rest with
            | error e =>
              rw [hrec] at hok
              exact absurd hok (by simp)
            | ok reps' =>
              rw [hrec] at hok
              replace hok : Except.ok
                  (⟨rowColToA1 (ri + 1) (ci + 1), jsToString v,
                    newValueFor mc me find repl v⟩ :: reps') =
                Except.ok reps := hok
              obtain rfl : reps = ⟨rowColToA1 (ri + 1) (ci + 1), jsToString v,
                  newValueFor mc me find repl v⟩ :: reps' := by
                cases hok
                rfl
              rw [List.mem_cons, ih (ci + 1) reps' hrec rep]
              constructor
              · rintro (h | ⟨j, v', h1, h2, h3, h4, h5⟩)
                · refine ⟨0, v, by simp, htr, by simpa using hpass, hhit, by simpa using h⟩
                · refine ⟨j + 1, v', by simpa using h1, h2, ?_, h4, ?_⟩
                  · rw [show ci + (j + 1) + 1 = ci + 1 + j + 1 by omega]
                    exact h3
                  · rw [show ci + (j + 1) + 1 = ci + 1 + j + 1 by omega]
                    exact h5
              · rintro ⟨j, v', h1, h2, h3, h4, h5⟩
                cases j with
                | zero =>
                  left
                  simp only [List.getElem?_cons_zero, Option.some_inj] at h1
                  subst h1
                  simpa using h5
                | succ j' =>
                  right
                  refine ⟨j', v', by simpa using h1, h2, ?_, h4, ?_⟩
                  · rw [show ci + 1 + j' + 1 = ci + (j' + 1) + 1 by omega]
                    exact h3
                  · rw [show ci + 1 + j' + 1 = ci + (j' + 1) + 1 by omega]
                    exact h5
          · unfold replaceCellCons at hok
            rw [if_neg hhit] at hok
            rw [ih (ci + 1) reps hok rep]
            constructor
            · rintro ⟨j, v', h1, h2, h3, h4, h5⟩
              refine ⟨j + 1, v', by simpa using h1, h2, ?_, h4, ?_⟩
              · rw [show ci + (j + 1) + 1 = ci + 1 + j + 1 by omega]
                exact h3
              · rw [show ci + (j + 1) + 1 = ci + 1 + j + 1 by omega]
                exact h5
            · rintro ⟨j, v', h1, h2, h3, h4, h5⟩
              cases j with
              | zero =>
                simp only [List.getElem?_cons_zero, Option.some_inj] at h1
                subst h1
                exact absurd h4 hhit
              | succ j' =>
                refine ⟨j', v', by simpa using h1, h2, ?_, h4, ?_⟩
                · rw [show ci + 1 + j' + 1 = ci + (j' + 1) + 1 by omega]
                  exact h3
                · rw [show ci + 1 + j' + 1 = ci + (j' + 1) + 1 by omega]
                  exact h5
    · rw [if_neg htr] at hok
      rw [ih (ci + 1) reps hok rep]
      constructor
      · rintro ⟨j, v', h1, h2, h3, h4, h5⟩
        refine ⟨j + 1, v', by simpa using h1, h2, ?_, h4, ?_⟩
        · rw [show ci + (j + 1) + 1 = ci + 1 + j + 1 by omega]
          exact h3
        · rw [show ci + (j + 1) + 1 = ci + 1 + j + 1 by omega]
          exact h5
      · rintro ⟨j, v', h1, h2, h3, h4, h5⟩
        cases j with
        | zero =>
          simp only [List.getElem?_cons_zero, Option.some_inj] at h1
          subst h1
          exact absurd h2 htr
        | succ j' =>
          refine ⟨j', v', by simpa using h1, h2, ?_, h4, ?_⟩
          · rw [show ci + 1 + j' + 1 = ci + (j' + 1) + 1 by omega]
            exact h3
          · rw [show ci + 1 + j' + 1 = ci + (j' + 1) + 1 by omega]
            exact h5

end GSMCP

namespace GSMCP

theorem replaceRowsFrom_ok_mem (find repl : String) (rng : Option String) (mc me : Bool) :
    ∀ (ri : Nat) (data : List (List CellValue)) (reps : List Replacement),
      replaceRowsFrom find repl rng mc me ri data = Except.ok reps →
      ∀ rep, rep ∈ reps ↔ ∃ i row j v, data[i]? = some row ∧ row[j]? = some v ∧
        jsTruthy v = true ∧ RangePass rng (ri + i + 1) (j + 1) ∧
        cellHit mc me find v = true ∧
        rep = ⟨rowColToA1 (ri + i + 1) (j + 1), jsToString v,
          newValueFor mc me find repl v⟩ := by
  intro ri data
  induction data generalizing ri with
  | nil =>
    intro reps hok rep
    simp only [replaceRowsFrom] at hok
    obtain rfl : reps = [] := by cases hok; rfl
    simp
  | cons row rest ih =>
    intro reps hok rep
    simp only [replaceRowsFrom] at hok
    cases h1 : replaceRowFrom find repl rng mc me ri 0 row with
    | error e =>
      rw [h1] at hok
      exact absurd hok (by simp)
    | ok reps1 =>
      rw [h1] at hok
      replace hok : (match replaceRowsFrom find repl rng mc me (ri + 1) rest with
          | Except.error e => Except.error e
          | Except.ok reps2 => Except.ok (reps1 ++ reps2)) = Except.ok reps := hok
      cases h2 : replaceRowsFrom find repl rng mc me (ri + 1) rest with
      | error e =>
        rw [h2] at hok
        exact absurd hok (by simp)
      | ok reps2 =>
        rw [h2] at hok
        replace hok : Except.ok (reps1 ++ reps2) = Except.ok reps := hok
        obtain rfl : reps = reps1 ++ reps2 := by cases hok; rfl
        rw [List.mem_append,
          replaceRowFrom_ok_mem find repl rng mc me ri 0 row reps1 h1 rep,
          ih (ri + 1) reps2 h2 rep]
        constructor
        · rintro (⟨j, v, h1', h2', h3', h4', h5'⟩ |
            ⟨i, row', j, v, h1', h2', h3', h4', h5', h6'⟩)
          · exact ⟨0, row, j, v, by simp, h1', h2', by simpa using h3', h4',
              by simpa using h5'⟩
          · refine ⟨i + 1, row', j, v, by simpa using h1', h2', h3', ?_, h5', ?_⟩
            · rw [show ri + (i + 1) + 1 = ri + 1 + i + 1 by omega]
              exact h4'
            · rw [show ri + (i + 1) + 1 = ri + 1 + i + 1 by omega]
              exact h6'
        · rintro ⟨i, row', j, v, h1', h2', h3', h4', h5', h6'⟩
          cases i with
          | zero =>
            left
            simp only [List.getElem?_cons_zero, Option.some_inj] at h1'
            subst h1'
            refine ⟨j, v, h2', h3', by simpa using h4', h5', by simpa using h6'⟩
          | succ i' =>
            right
            refine ⟨i', row', j, v, by simpa using h1', h2', h3', ?_, h5', ?_⟩
            · rw [show ri + 1 + i' + 1 = ri + (i' + 1) + 1 by omega]
              exact h4'
            · rw [show ri + 1 + i' + 1 = ri + (i' + 1) + 1 by omega]
              exact h6'

end GSMCP

namespace GSMCP

/-- C6 counterexample: the empty range string is a supplied range option,
yet the source's `if (range)` truthiness guard skips the restriction
entirely: the call completes and rewrites cell A1 although no
sub-rectangle exists at all (`parseRange ""` fails), so the write is not
confined to any given sub-rectangle. -/
theorem smartReplace_empty_range_counterexample :
    smartReplace [[CellValue.str "a"]] "a" "b" (some "") false false =
      Except.ok [⟨"A1", "a", "b"⟩] ∧
    parseRange "" = Except.error (SheetsErr.invalidRange "") :=
  ⟨by rfl, by rfl⟩

/-- C6 (amended): in a `smartReplace` call with a NON-EMPTY range option
(the empty range string is falsy, so the source ignores it and scans the
whole grid) that completes with replacement list `reps`, every
replacement (the source issues exactly one cell write per replacement,
with the same cell and value) lies inside the parsed sub-rectangle and
corresponds to a truthy cell of the grid that matches `findText` under
the configured rules; hence no write is issued for a cell outside the
range, none appears in any Replacement, and in-range cells that do not
match are untouched.  -/
theorem smartReplace_range_frame (data : List (List CellValue))
    (find repl rangeStr : String) (mc me : Bool) (reps : List Replacement)
    (hne : rangeStr ≠ "")
    (hok : smartReplace data find repl (some rangeStr) mc me = Except.ok reps)
    (rep : Replacement) (hmem : rep ∈ reps) :
    ∃ (q : ParsedRange) (i j : Nat) (row : List CellValue) (v : CellValue),
      parseRange rangeStr = Except.ok q ∧
      data[i]? = some row ∧ row[j]? = some v ∧ jsTruthy v = true ∧
      q.startRow ≤ i + 1 ∧ i + 1 ≤ q.endRow ∧ q.startCol ≤ j + 1 ∧ j + 1 ≤ q.endCol ∧
      cellHit mc me find v = true ∧
      rep = ⟨rowColToA1 (i + 1) (j + 1), jsToString v,
        newValueFor mc me find repl v⟩ := by
  rw [smartReplace] at hok
  obtain ⟨i, row, j, v, h1, h2, h3, h4, h5, h6⟩ :=
    (replaceRowsFrom_ok_mem find repl (some rangeStr) mc me 0 data reps hok rep).mp hmem
  rcases h4 with h4 | ⟨q, hq, hb1, hb2, hb3, hb4⟩
  · exact absurd h4 hne
  · exact ⟨q, i, j, row, v, hq, h1, h2, h3, by simpa using hb1, by simpa using hb2,
      hb3, hb4, h5, by simpa using h6⟩

/-- C6 witness: the frame property applied to a concrete call restricted
to `A1:A1` on a two-cell row, whose single replacement is the in-range
matching cell A1. -/
theorem smartReplace_range_frame_witness :
    ∃ (q : ParsedRange) (i j : Nat) (row : List CellValue) (v : CellValue),
      parseRange "A1:A1" = Except.ok q ∧
      ([[CellValue.str "a", CellValue.str "b"]] : List (List CellValue))[i]? = some row ∧
      row[j]? = some v ∧ jsTruthy v = true ∧
      q.startRow ≤ i + 1 ∧ i + 1 ≤ q.endRow ∧ q.startCol ≤ j + 1 ∧ j + 1 ≤ q.endCol ∧
      cellHit false false "a" v = true ∧
      (⟨"A1", "a", "c"⟩ : Replacement) = ⟨rowColToA1 (i + 1) (j + 1), jsToString v,
        newValueFor false false "a" "c" v⟩ :=
  smartReplace_range_frame [[CellValue.str "a", CellValue.str "b"]] "a" "c" "A1:A1"
    false false [⟨"A1", "a", "c"⟩] (by decide) (by rfl) ⟨"A1", "a", "c"⟩ (by simp)

end GSMCP


namespace GSMCP

theorem expandRepl_no_dollar (matched before after : List Char) :
    ∀ repl : List Char, '$' ∉ repl → expandRepl matched before after repl = repl := by
  intro repl
  induction repl with
  | nil => intro _; rfl
  | cons c cs ih =>
    intro hd
    simp only [List.mem_cons, not_or] at hd
    have hc : ¬(c = '$') := fun h => hd.1 h.symm
    have hcs : '$' ∉ cs := hd.2
    cases cs with
    | nil => rfl
    | cons d rest =>
      simp only [expandRepl]
      rw [if_neg hc, ih hcs]

theorem matchHead_some (ci : Bool) :
    ∀ (find rest m r : List Char), matchHead ci find rest = some (m, r) →
      rest = m ++ r ∧ m.length = find.length ∧ matchHead ci find m = some (m, []) := by
  intro find
  induction find with
  | nil =>
    intro rest m r h
    simp only [matchHead, Option.some_inj, Prod.mk.injEq] at h
    obtain ⟨rfl, rfl⟩ := h
    exact ⟨rfl, rfl, rfl⟩
  | cons f fs ih =>
    intro rest m r h
    cases rest with
    | nil => simp [matchHead] at h
    | cons c rs =>
      simp only [matchHead] at h
      by_cases hcc : charCIEq ci f c = true
      · rw [if_pos hcc] at h
        cases hm : matchHead ci fs rs with
        | none => rw [hm] at h; simp at h
        | some p =>
          obtain ⟨m', r'⟩ := p
          rw [hm] at h
          simp only [Option.some_inj, Prod.mk.injEq] at h
          obtain ⟨rfl, rfl⟩ := h
          obtain ⟨he, hl, hmh⟩ := ih rs m' r' hm
          refine ⟨by rw [he]; rfl, by simp [hl], ?_⟩
          simp only [matchHead]
          rw [if_pos hcc, hmh]
      · rw [if_neg hcc] at h
        cases h

theorem consHead_fst_ne_nil (c : Char) (p : List (List Char) × List (List Char)) :
    (consHead c p).1 ≠ [] := by
  obtain ⟨ps, ms⟩ := p
  cases ps <;> simp [consHead]

theorem scanParts_fst_ne_nil (ci : Bool) (find : List Char) :
    ∀ (fuel : Nat) (rest : List Char), (scanParts ci find fuel rest).1 ≠ [] := by
  intro fuel
  cases fuel with
  | zero => intro rest; simp [scanParts]
  | succ f =>
    intro rest
    cases rest with
    | nil => simp [scanParts]
    | cons c rs =>
      cases hm : matchHead ci find (c :: rs) with
      | none =>
        simp only [scanParts, hm]
        exact consHead_fst_ne_nil c _
      | some p =>
        obtain ⟨m, r⟩ := p
        by_cases hme : m.isEmpty = true
        · simp only [scanParts, hm, hme, if_true]
          exact consHead_fst_ne_nil c _
        · simp only [scanParts, hm]
          rw [if_neg hme]
          simp

theorem interleave_cons_head (c : Char) (p : List Char) (ps ms : List (List Char)) :
    interleave ((c :: p) :: ps) ms = c :: interleave (p :: ps) ms := by
  cases ms <;> rfl

theorem interleave_consHead (c : Char) (pr : List (List Char) × List (List Char))
    (h : pr.1 ≠ []) :
    interleave (consHead c pr).1 (consHead c pr).2 = c :: interleave pr.1 pr.2 := by
  obtain ⟨ps, ms⟩ := pr
  cases ps with
  | nil => simp at h
  | cons p ps' =>
    simp only [consHead]
    exact interleave_cons_head c p ps' ms

theorem matchHead_ne_empty {ci : Bool} {find rest m r : List Char} (hf : find ≠ [])
    (hm : matchHead ci find rest = some (m, r)) : m.isEmpty = false := by
  obtain ⟨_, hl, _⟩ := matchHead_some ci find rest m r hm
  cases m with
  | nil =>
    exfalso
    apply hf
    cases find with
    | nil => rfl
    | cons a b => simp at hl
  | cons a b => rfl

theorem matchHead_nil_none {ci : Bool} {find : List Char} (hf : find ≠ []) :
    matchHead ci find ([] : List Char) = none := by
  cases find with
  | nil => exact absurd rfl hf
  | cons f fs => rfl

theorem scanParts_interleave (ci : Bool) (find : List Char) (hf : find ≠ []) :
    ∀ (fuel : Nat) (rest : List Char), rest.length < fuel →
      interleave (scanParts ci find fuel rest).1 (scanParts ci find fuel rest).2 = rest := by
  intro fuel
  induction fuel with
  | zero => intro rest h; omega
  | succ f ih =>
    intro rest hlen
    cases rest with
    | nil => rfl
    | cons c rs =>
      cases hm : matchHead ci find (c :: rs) with
      | none =>
        simp only [scanParts, hm]
        rw [interleave_consHead c _ (scanParts_fst_ne_nil ci find f rs)]
        rw [ih rs (by simpa using Nat.lt_of_succ_lt_succ hlen)]
      | some p =>
        obtain ⟨m, r⟩ := p
        have hme := matchHead_ne_empty hf hm
        simp only [scanParts, hm, hme, Bool.false_eq_true, if_false]
        obtain ⟨hrest, hl, _⟩ := matchHead_some ci find (c :: rs) m r hm
        have hrlen : r.length < f := by
          have h1 : (c :: rs).length = m.length + r.length := by
            rw [hrest, List.length_append]
          have h2 : 1 ≤ m.length := by
            cases m with
            | nil => simp at hme
            | cons a b => simp
          simp only [List.length_cons] at h1 hlen
          omega
        rw [show interleave ([] :: (scanParts ci find f r).1)
            (m :: (scanParts ci find f r).2) =
            m ++ interleave (scanParts ci find f r).1 (scanParts ci find f r).2 from rfl]
        rw [ih r hrlen, ← hrest]

theorem joinParts_cons_head (sep : List Char) (c : Char) (p : List Char)
    (ps : List (List Char)) :
    joinParts sep ((c :: p) :: ps) = c :: joinParts sep (p :: ps) := by
  cases ps <;> rfl

theorem joinParts_consHead (sep : List Char) (c : Char)
    (pr : List (List Char) × List (List Char)) (h : pr.1 ≠ []) :
    joinParts sep (consHead c pr).1 = c :: joinParts sep pr.1 := by
  obtain ⟨ps, ms⟩ := pr
  cases ps with
  | nil => simp at h
  | cons p ps' =>
    simp only [consHead]
    exact joinParts_cons_head sep c p ps'

theorem goRepl_joinParts (ci : Bool) (find repl : List Char) (hf : find ≠ [])
    (hd : '$' ∉ repl) :
    ∀ (fuel : Nat) (pre rest : List Char),
      goRepl ci find repl fuel pre rest = joinParts repl (scanParts ci find fuel rest).1 := by
  intro fuel
  induction fuel with
  | zero => intro pre rest; rfl
  | succ f ih =>
    intro pre rest
    cases rest with
    | nil => simp only [goRepl, scanParts, matchHead_nil_none hf]; rfl
    | cons c rs =>
      cases hm : matchHead ci find (c :: rs) with
      | none =>
        simp only [goRepl, scanParts, hm]
        rw [joinParts_consHead repl c _ (scanParts_fst_ne_nil ci find f rs), ih (c :: pre) rs]
      | some p =>
        obtain ⟨m, r⟩ := p
        have hme := matchHead_ne_empty hf hm
        simp only [goRepl, scanParts, hm, hme, Bool.false_eq_true, if_false]
        rw [expandRepl_no_dollar _ _ _ repl hd, ih (m.reverse ++ pre) r]
        have hne := scanParts_fst_ne_nil ci find f r
        obtain ⟨p, ps', hps⟩ := List.exists_cons_of_ne_nil hne
        rw [hps]
        rfl

theorem scanParts_matches (ci : Bool) (find : List Char) (hf : find ≠ []) :
    ∀ (fuel : Nat) (rest m : List Char), m ∈ (scanParts ci find fuel rest).2 →
      matchHead ci find m = some (m, []) := by
  intro fuel
  induction fuel with
  | zero => intro rest m h; simp [scanParts] at h
  | succ f ih =>
    intro rest m h
    cases rest with
    | nil => simp [scanParts] at h
    | cons c rs =>
      cases hm : matchHead ci find (c :: rs) with
      | none =>
        simp only [scanParts, hm] at h
        have hsnd : (consHead c (scanParts ci find f rs)).2 = (scanParts ci find f rs).2 := by
          obtain ⟨ps, ms⟩ := scanParts ci find f rs
          cases ps <;> simp [consHead]
        rw [hsnd] at h
        exact ih rs m h
      | some p =>
        obtain ⟨m', r⟩ := p
        have hme := matchHead_ne_empty hf hm
        simp only [scanParts, hm, hme, Bool.false_eq_true, if_false] at h
        simp only [List.mem_cons] at h
        rcases h with rfl | h
        · exact (matchHead_some ci find (c :: rs) m r hm).2.2
        · exact ih r m h

end GSMCP

namespace GSMCP

/-- C5 counterexample: (i) on cell `"a"` with `findText "a"` and
`replaceText "$$"` (substring mode), the occurrence is NOT replaced by
`replaceText` verbatim: JavaScript replacement-pattern expansion turns
`$$` into a single `$`; (ii) in whole-cell mode, the cell `""` is
non-absent and its entire text equals `findText ""` under the case rule,
yet it is not replaced (falsy cells are skipped). -/
theorem smartReplace_counterexample :
    smartReplace [[CellValue.str "a"]] "a" "$$" none false false =
      Except.ok [⟨"A1", "a", "$"⟩] ∧
    ("$" : String) ≠ "$$" ∧
    smartReplace [[CellValue.str ""]] "" "x" none false true = Except.ok [] ∧
    caseText false (jsToString (CellValue.str "")) = caseText false "" ∧
    CellValue.str "" ≠ CellValue.absent :=
  ⟨by rfl, by decide, by rfl, by rfl, by decide⟩

/-- C5 (amended): over TRUTHY cells, with `matchEntireCell = true` a cell
is replaced iff its entire text equals `findText` under the case rule,
the whole value becoming `replaceText` verbatim; with
`matchEntireCell = false` the occurrences of `findText` found by the
left-to-right scan (case-insensitively when `matchCase` is false) are
each replaced by the `$`-pattern expansion of `replaceText` — for a
`$`-free `replaceText`, the cell becomes its non-matched segments joined
by `replaceText`, those segments interleaved with the matched occurrences
reassemble the original text (surrounding text unchanged), and every
matched occurrence matches `findText` under the case rule; the example
cell `"Contact: Seoul Office"` yields `"Contact: Seoul City Office"`
in substring mode and is untouched in whole-cell mode. -/
theorem smartReplace_semantics :
    (∀ (data : List (List CellValue)) (find repl : String) (mc : Bool)
      (reps : List Replacement),
      smartReplace data find repl none mc true = Except.ok reps →
      ∀ rep, rep ∈ reps ↔ ∃ i row j v, data[i]? = some row ∧ row[j]? = some v ∧
        jsTruthy v = true ∧ caseText mc (jsToString v) = caseText mc find ∧
        rep = ⟨rowColToA1 (i + 1) (j + 1), jsToString v, repl⟩) ∧
    (∀ (mc : Bool) (find repl s : String), find.toList ≠ [] → '$' ∉ repl.toList →
      (jsReplaceAll mc find repl s).toList =
        joinParts repl.toList
          (scanParts (!mc) find.toList (s.toList.length + 1) s.toList).1 ∧
      interleave (scanParts (!mc) find.toList (s.toList.length + 1) s.toList).1
        (scanParts (!mc) find.toList (s.toList.length + 1) s.toList).2 = s.toList ∧
      ∀ m ∈ (scanParts (!mc) find.toList (s.toList.length + 1) s.toList).2,
        matchHead (!mc) find.toList m = some (m, [])) ∧
    smartReplace [[CellValue.str "Contact: Seoul Office"]] "Seoul" "Seoul City" none
      false false =
      Except.ok [⟨"A1", "Contact: Seoul Office", "Contact: Seoul City Office"⟩] ∧
    smartReplace [[CellValue.str "Contact: Seoul Office"]] "Seoul" "Seoul City" none
      false true = Except.ok [] := by
  refine ⟨?_, ?_, by rfl, by rfl⟩
  · intro data find repl mc reps hok rep
    rw [smartReplace] at hok
    rw [replaceRowsFrom_ok_mem find repl none mc true 0 data reps hok rep]
    constructor
    · rintro ⟨i, row, j, v, h1, h2, h3, _, h5, h6⟩
      refine ⟨i, row, j, v, h1, h2, h3, ?_, ?_⟩
      · simp only [cellHit, if_true, beq_iff_eq] at h5
        exact h5
      · simpa [newValueFor] using h6
    · rintro ⟨i, row, j, v, h1, h2, h3, h4, h5⟩
      refine ⟨i, row, j, v, h1, h2, h3, trivial, ?_, ?_⟩
      · simp [cellHit, h4]
      · simpa [newValueFor] using h5
  · intro mc find repl s hf hd
    refine ⟨?_,
      scanParts_interleave (!mc) find.toList hf (s.toList.length + 1) s.toList (by omega),
      fun m hm2 => scanParts_matches (!mc) find.toList hf _ _ m hm2⟩
    simp only [jsReplaceAll]
    exact goRepl_joinParts (!mc) find.toList repl.toList hf hd (s.toList.length + 1) []
      s.toList

/-- C5 witness: the substring-mode characterization applied to the
case-insensitive replacement of `"ab"` by `"X"` in `"abcab"`. -/
theorem smartReplace_semantics_witness :
    (jsReplaceAll false "ab" "X" "abcab").toList =
      joinParts "X".toList
        (scanParts (!false) "ab".toList ("abcab".toList.length + 1) "abcab".toList).1 :=
  (smartReplace_semantics.2.1 false "ab" "X" "abcab" (by decide) (by decide)).1

end GSMCP
